import Mathlib

/-!
# Verification of `hootio/deck` (`deck.go`)

A shallow embedding of the Go package `deck`: cards, deck construction,
comparators, sorting, shuffling and filtering, followed by the theorems that
settle the claims of the specification.

Conventions of the embedding.

* `Suit` and `Rank` are Go `uint8`; they are embedded as `Nat`, and every
  conversion the source performs into them (`Rank(i)`) is reduced `% 256`
  explicitly.
* The loop counters of `New` are `int` converted with `uint(count)`, which
  enumerates `0, 1, 2, ...` in order, so the loops run exactly `numDecks` and
  `numJokersPerDeck` times.
* `New` is embedded twice.  `New` is the deck its loops build, as a value.
  `NewAlloc` is the call with its allocations: the `uint` product
  `TypicalDeckSize*numDecks` reduced `% 2 ^ 64`, the `make` of that capacity,
  which panics when the runtime refuses it, and every `append`, which asks the
  runtime for a larger array once the capacity is used up.  Whenever
  `NewAlloc` returns a deck, it is `New`.
* A `Deck` (`[]Card`) is embedded as `List Card`.  Operations that mutate the
  slice in place return the new contents.  Indexing outside the slice panics
  in Go; operations that index return `Option`, with `none` for a panic.
-/

namespace Deck

/-! ## Data model -/

/-! Go `type Suit uint8` and `type Rank uint8` are both embedded as `Nat`. -/

/-- Go `const TypicalDeckSize = 54`. -/
def TypicalDeckSize : Nat := 54

def Spade : Nat := 0
def Diamond : Nat := 1
def Club : Nat := 2
def Heart : Nat := 3
/-- Special case. -/
def Joker : Nat := 4

/-- Go `var suits = [...]Suit{Spade, Diamond, Club, Heart}`. -/
def suits : List Nat := [Spade, Diamond, Club, Heart]

def Ace : Nat := 1
def Two : Nat := 2
def Three : Nat := 3
def Four : Nat := 4
def Five : Nat := 5
def Six : Nat := 6
def Seven : Nat := 7
def Eight : Nat := 8
def Nine : Nat := 9
def Ten : Nat := 10
def Jack : Nat := 11
def Queen : Nat := 12
def King : Nat := 13

def minRank : Nat := Ace
def maxRank : Nat := King

/-- Go `type Card struct { Suit; Rank }`. -/
structure Card where
  Suit : Nat
  Rank : Nat
  deriving DecidableEq, Repr

/-- Go `func (c Card) absRank() int`: `int(c.Suit)*int(maxRank) + int(c.Rank)`. -/
def Card.absRank (c : Card) : Int :=
  (c.Suit : Int) * (maxRank : Int) + (c.Rank : Int)

end Deck

/-- Go `type Deck []Card`. -/
abbrev Deck := List Deck.Card

namespace Deck

/-! ## Construction -/

/-- The inner loop of `New` over ranks:
`for rank := minRank; rank <= maxRank; rank++ { deck = append(deck, Card{suit, rank}) }`. -/
def appendRanks (deck : Deck) (suit : Nat) : Deck :=
  (List.range' minRank (maxRank + 1 - minRank)).foldl
    (fun dk rank => dk ++ [{ Suit := suit, Rank := rank }]) deck

/-- The loop of `New` over suits: `for _, suit := range suits { ... }`. -/
def appendSuits (deck : Deck) : Deck :=
  suits.foldl appendRanks deck

/-- The joker loop of `New`:
`for i := 0; uint(i) < numJokersPerDeck; i++ { deck = append(deck, Card{Joker, Rank(i)}) }`.
`Rank(i)` converts to `uint8`, keeping the low eight bits of `i`. -/
def appendJokers (deck : Deck) (numJokersPerDeck : Nat) : Deck :=
  (List.range numJokersPerDeck).foldl
    (fun dk i => dk ++ [{ Suit := Joker, Rank := i % 256 }]) deck

/-- Go `func New(numDecks, numJokersPerDeck uint) Deck`, the deck built by its
loops: the value `New` returns whenever it returns.  The allocations of the
call are in `NewAlloc`. -/
def New (numDecks numJokersPerDeck : Nat) : Deck :=
  (List.range numDecks).foldl
    (fun dk _ => appendJokers (appendSuits dk) numJokersPerDeck) []

/-! ## Construction with its allocations -/

/-- Go `uint` on a 64-bit target: its arithmetic is reduced modulo `2 ^ 64`. -/
def uintModulus : Nat := 2 ^ 64

/-- The Go runtime's `maxAlloc` on a 64-bit target with 48 heap address bits
(linux/amd64): the largest size in bytes that `makeslice` and `growslice`
accept. -/
def maxAlloc : Nat := 2 ^ 48

/-- The size in bytes of a `Card`, a struct of two `uint8` fields. -/
def cardSize : Nat := 2

/-- A `Deck` while `New` builds it: the cards appended so far and the capacity
of the backing array. -/
structure Slice where
  cards : Deck
  cap : Nat

/-- Go `make(Deck, 0, n)` for a `uint` value `n` (`runtime.makeslice`): the
call panics (`none`) when the size `n * cardSize` is more than `maxAlloc`,
which covers every `n` that is negative once converted to `int`; otherwise it
yields an empty slice of capacity `n`. -/
def makeDeck (n : Nat) : Option Slice :=
  if cardSize * n ≤ maxAlloc then some { cards := [], cap := n } else none

/-- What the runtime decides when `append` finds the backing array full
(`runtime.growslice`, given the old capacity and the length needed): the
capacity of the new array, or `none` when it gives up (the panic
`growslice: len out of range`, or out of memory).  Its size-class arithmetic
is internal to the runtime, so it is a parameter. -/
abbrev Grower := Nat → Nat → Option Nat

/-- Go `deck = append(deck, card)`: within the capacity the card is stored in
place; otherwise the runtime is asked for a larger array. -/
def appendCard (grow : Grower) (deck : Slice) (card : Card) : Option Slice :=
  if deck.cards.length < deck.cap then
    some { cards := deck.cards ++ [card], cap := deck.cap }
  else
    match grow deck.cap (deck.cards.length + 1) with
    | none => none
    | some newCap => some { cards := deck.cards ++ [card], cap := newCap }

/-- The inner loop of `New` over ranks, with the allocation of each `append`. -/
def appendRanksAlloc (grow : Grower) (deck : Slice) (suit : Nat) : Option Slice :=
  (List.range' minRank (maxRank + 1 - minRank)).foldlM
    (fun dk rank => appendCard grow dk { Suit := suit, Rank := rank }) deck

/-- The loop of `New` over suits, with the allocation of each `append`. -/
def appendSuitsAlloc (grow : Grower) (deck : Slice) : Option Slice :=
  suits.foldlM (appendRanksAlloc grow) deck

/-- The joker loop of `New`, with the allocation of each `append`. -/
def appendJokersAlloc (grow : Grower) (deck : Slice) (numJokersPerDeck : Nat) : Option Slice :=
  (List.range numJokersPerDeck).foldlM
    (fun dk i => appendCard grow dk { Suit := Joker, Rank := i % 256 }) deck

/-- Go `func New(numDecks, numJokersPerDeck uint) Deck` as a call:
`deck := make(Deck, 0, TypicalDeckSize*numDecks)` with the product computed in
`uint`, then the loops, then `return deck`.  The result is `none` when the
call does not return a deck. -/
def NewAlloc (grow : Grower) (numDecks numJokersPerDeck : Nat) : Option Deck :=
  match makeDeck ((TypicalDeckSize * numDecks) % uintModulus) with
  | none => none
  | some deck =>
    match (List.range numDecks).foldlM
        (fun dk _ =>
          (appendSuitsAlloc grow dk).bind fun dk1 => appendJokersAlloc grow dk1 numJokersPerDeck)
        deck with
    | none => none
    | some dk => some dk.cards

/-- The step `step` appends the block `blk` to a slice: that is what it leaves
when it returns, it returns without allocating when the block fits in the
capacity, and it returns whenever the runtime always grants a larger array. -/
structure Appends (grow : Grower) (step : Slice → Option Slice) (blk : Deck) : Prop where
  value : ∀ s s1, step s = some s1 → s1.cards = s.cards ++ blk
  inPlace : ∀ s, s.cards.length + blk.length ≤ s.cap →
    step s = some { cards := s.cards ++ blk, cap := s.cap }
  grown : (∀ c l, (grow c l).isSome = true) → ∀ s, ∃ s1, step s = some s1

/-! ## Display -/

/-- Modelled from the spec: `Suit.String` is generated by `stringer`
(`//go:generate stringer -type=Suit,Rank`) and the generated file is not among
the sources.  The spec describes a name lookup from the enumerated value to
its display name (`Spade`, `Diamond`, `Club`, `Heart`, `Joker`); a value
outside the enumeration is shown as `Suit(n)`. -/
def Suit.String (s : Nat) : String :=
  match s with
  | 0 => "Spade"
  | 1 => "Diamond"
  | 2 => "Club"
  | 3 => "Heart"
  | 4 => "Joker"
  | n => "Suit(" ++ toString n ++ ")"

/-- Modelled from the spec: `Rank.String` is generated by `stringer` and the
generated file is not among the sources.  The spec describes a name lookup
from the enumerated value (`Ace = 1` to `King = 13`) to its display name; a
value outside the enumeration is shown as `Rank(n)`. -/
def Rank.String (r : Nat) : String :=
  match r with
  | 1 => "Ace"
  | 2 => "Two"
  | 3 => "Three"
  | 4 => "Four"
  | 5 => "Five"
  | 6 => "Six"
  | 7 => "Seven"
  | 8 => "Eight"
  | 9 => "Nine"
  | 10 => "Ten"
  | 11 => "Jack"
  | 12 => "Queen"
  | 13 => "King"
  | n => "Rank(" ++ toString n ++ ")"

/-- Go `func (c Card) String() string`:
`if c.Suit == Joker { return c.Suit.String() }` and otherwise
`fmt.Sprintf("%s of %ss", c.Rank.String(), c.Suit.String())`. -/
def Card.String (c : Card) : String :=
  if c.Suit = Joker then Suit.String c.Suit
  else Rank.String c.Rank ++ " of " ++ Suit.String c.Suit ++ "s"

/-! ## Indexing and swapping -/

/-- Go `d[i]` for an `int` index: `none` stands for the out-of-range panic. -/
def index (d : Deck) (i : Int) : Option Card :=
  if 0 ≤ i then d[i.toNat]? else none

/-- Go `d[i], d[j] = d[j], d[i]`: both elements are read (a panic when an
index is out of range), then both are written. -/
def swapAt (d : Deck) (i j : Int) : Option Deck :=
  match index d i, index d j with
  | some a, some b => some ((d.set i.toNat b).set j.toNat a)
  | _, _ => none

/-! ## Comparators and sorting -/

/-- A Go `func(i, j int) bool` closed over a slice.  The closure reads the
backing array each time it is called, so the embedding passes it the current
contents of the slice; `none` stands for a panic. -/
abbrev Comparator := Deck → Int → Int → Option Bool

/-- Go `func (d Deck) Less() func(i, j int) bool`:
`return d[i].absRank() < d[j].absRank()`. -/
def Less : Comparator := fun d i j =>
  match index d i, index d j with
  | some a, some b => some (decide (a.absRank < b.absRank))
  | _, _ => none

/-- Go `func (d Deck) Greater() func(i, j int) bool`:
`return d[i].absRank() > d[j].absRank()`. -/
def Greater : Comparator := fun d i j =>
  match index d i, index d j with
  | some a, some b => some (decide (a.absRank > b.absRank))
  | _, _ => none

/-- The shape of the standard library's `sort.Slice(x, less)`, which is not
part of the repository: it is given the comparator and the slice and leaves
the slice reordered (`none` for a panic). -/
abbrev SliceSorter := Comparator → Deck → Option Deck

/-- The requirement the documentation of package `sort` puts on a `less`
function, read on the elements: nothing sorts before itself, and the ordering
is transitive both where `less` holds and where it does not. -/
structure LessOrdering (lt : Card → Card → Bool) : Prop where
  irrefl : ∀ a, lt a a = false
  trans : ∀ a b c, lt a b = true → lt b c = true → lt a c = true
  trans_not : ∀ a b c, lt a b = false → lt b c = false → lt a c = false

/-- The documented contract of `sort.Slice`: when `less i j` reports an
ordering `lt` of the elements currently at positions `i` and `j`, and `lt`
meets `LessOrdering`, the call returns with the slice a rearrangement of its
former contents in which no element sorts before an earlier one. -/
def SortSliceContract (sortSlice : SliceSorter) : Prop :=
  ∀ (lt : Card → Card → Bool) (less : Comparator) (x : Deck),
    LessOrdering lt →
    (∀ (st : Deck) (i j : Nat) (a b : Card),
      st[i]? = some a → st[j]? = some b → less st i j = some (lt a b)) →
    ∃ y, sortSlice less x = some y ∧ y.Perm x ∧ y.Pairwise (fun a b => lt b a = false)

end Deck

/-- Go `func (d Deck) Sort(comparator func(i, j int) bool)`:
`if comparator == nil { comparator = d.Less() }; sort.Slice(d, comparator)`.
The library routine is a parameter; `none` for the comparator is Go `nil`. -/
def Deck.Sort (sortSlice : Deck.SliceSorter) (d : Deck) (comparator : Option Deck.Comparator) :
    Option Deck :=
  let comparator :=
    match comparator with
    | none => Deck.Less
    | some c => c
  sortSlice comparator d

namespace Deck

/-- The inner loop of the standard library's `insertionSortLessFunc`:
`for j := i; j > a && data.Less(j, j-1); j-- { data.Swap(j, j-1) }` with
`a = 0`. -/
def insertionInner (less : Comparator) : Nat → Deck → Option Deck
  | 0, st => some st
  | j + 1, st =>
    match less st ((j + 1 : Nat) : Int) ((j : Nat) : Int) with
    | none => none
    | some true =>
      match swapAt st ((j + 1 : Nat) : Int) ((j : Nat) : Int) with
      | none => none
      | some st1 => insertionInner less j st1
    | some false => some st

/-- The outer loop of `insertionSortLessFunc`, `for i := a + 1; i < b; i++`:
`k` iterations remain and the next one inserts position `i`. -/
def insertionOuter (less : Comparator) : Nat → Nat → Deck → Option Deck
  | 0, _, st => some st
  | k + 1, i, st =>
    match insertionInner less i st with
    | none => none
    | some st1 => insertionOuter less k (i + 1) st1

/-- The standard library's `insertionSortLessFunc(data, 0, n)`, the routine
that `sort.Slice` runs on a short slice; it is one sorter that meets
`SortSliceContract`. -/
def insertionSortLessFunc : SliceSorter := fun less x =>
  insertionOuter less (x.length - 1) 1 x

/-! ## Shuffling -/

/-- The standard library's `rand.Shuffle(n, swap)`, which is not part of the
repository: a Fisher–Yates pass `for i := n - 1; i > 0; i-- { j := <random
value in [0, i]>; swap(i, j) }`.  The first argument gives the value the
random source yields at position `i`, reduced into `[0, i]`; the loop is
entered at position `i`. -/
def randShuffle (draw : Nat → Nat) (swap : Deck → Int → Int → Option Deck) :
    Nat → Deck → Option Deck
  | 0, d => some d
  | i + 1, d =>
    match swap d ((i + 1 : Nat) : Int) ((draw (i + 1) % (i + 2) : Nat) : Int) with
    | none => none
    | some d1 => randShuffle draw swap i d1

/-- Go `func (d Deck) Shuffle()`:
`rand.Shuffle(len(d), func(i, j int) { d[i], d[j] = d[j], d[i] })`.
The values of the process-wide random source are a parameter. -/
def Shuffle (draw : Nat → Nat) (d : Deck) : Option Deck :=
  randShuffle draw swapAt (d.length - 1) d

/-! ## Filtering -/

/-- A Go `map[K]bool` with `uint8` keys, as a lookup: `none` for an absent key. -/
abbrev GoMap := Nat → Option Bool

/-- The empty map literal `map[K]bool{}`. -/
def GoMap.empty : GoMap := fun _ => none

/-- Go `m[k] = v`. -/
def GoMap.store (m : GoMap) (k : Nat) (v : Bool) : GoMap :=
  fun x => if x = k then some v else m x

/-- Go `_, ok := m[k]`: whether the key is present. -/
def GoMap.has (m : GoMap) (k : Nat) : Bool := (m k).isSome

/-- Go `func (d Deck) Filter(suits []Suit, ranks []Rank) Deck`. -/
def Filter (d : Deck) (suits : List Nat) (ranks : List Nat) : Deck :=
  let suitSet := suits.foldl (fun m s => GoMap.store m s true) GoMap.empty
  let rankSet := ranks.foldl (fun m r => GoMap.store m r true) GoMap.empty
  d.foldl
    (fun filtered card =>
      let okSuit := GoMap.has suitSet card.Suit
      let okRank := GoMap.has rankSet card.Rank
      if okSuit || okRank then filtered else filtered ++ [card])
    []

/-! ## Closed forms used by the proofs -/

/-- The 52 standard cards in construction order. -/
def standardCards : Deck :=
  suits.flatMap fun suit => (List.range' 1 13).map fun rank => { Suit := suit, Rank := rank }

/-- The jokers of one constituent deck in construction order. -/
def jokerCards (j : Nat) : Deck :=
  (List.range j).map fun i => { Suit := Joker, Rank := i % 256 }

/-- One constituent deck. -/
def oneDeck (j : Nat) : Deck := standardCards ++ jokerCards j

/-- The number of distinct ranks of `Ace..King` that occur in a list of ranks. -/
def distinctStandardRanks (ranks : List Nat) : Nat :=
  ((ranks.filter fun r => decide (Ace ≤ r ∧ r ≤ King)).dedup).length

/-! ## Construction: lemmas -/

theorem foldl_append_singleton {α β : Type} (f : α → β) (xs : List α) (acc : List β) :
    xs.foldl (fun dk x => dk ++ [f x]) acc = acc ++ xs.map f := by
  induction xs generalizing acc with
  | nil => simp
  | cons x xs ih => simp [ih]

theorem appendRanks_eq (deck : Deck) (suit : Nat) :
    appendRanks deck suit
      = deck ++ (List.range' 1 13).map fun rank => { Suit := suit, Rank := rank } := by
  unfold appendRanks
  rw [foldl_append_singleton (fun rank => ({ Suit := suit, Rank := rank } : Card))]
  rfl

theorem appendSuits_eq (deck : Deck) : appendSuits deck = deck ++ standardCards := by
  simp [appendSuits, suits, standardCards, appendRanks_eq, List.flatMap]

theorem appendJokers_eq (deck : Deck) (j : Nat) :
    appendJokers deck j = deck ++ jokerCards j := by
  unfold appendJokers jokerCards
  exact foldl_append_singleton (fun i => ({ Suit := Joker, Rank := i % 256 } : Card)) _ _

theorem foldl_const_append {α : Type} (blk : List α) (f : List α → Nat → List α)
    (hf : ∀ dk k, f dk k = dk ++ blk) (n : Nat) (acc : List α) :
    (List.range n).foldl f acc = acc ++ (List.replicate n blk).flatten := by
  induction n generalizing acc with
  | zero => simp
  | succ n ih =>
    rw [List.range_succ, List.foldl_append, ih]
    simp [hf, List.replicate_succ', List.flatten_append]

theorem New_eq (n j : Nat) : New n j = (List.replicate n (oneDeck j)).flatten := by
  unfold New
  rw [foldl_const_append (oneDeck j)]
  · simp
  · intro dk _
    simp [appendJokers_eq, appendSuits_eq, oneDeck]

theorem length_standardCards : standardCards.length = 52 := by decide

theorem length_jokerCards (j : Nat) : (jokerCards j).length = j := by
  simp [jokerCards]

theorem length_oneDeck (j : Nat) : (oneDeck j).length = 52 + j := by
  simp [oneDeck, length_standardCards, length_jokerCards]

theorem length_flatten_replicate {α : Type} (n : Nat) (blk : List α) :
    (List.replicate n blk).flatten.length = n * blk.length := by
  induction n with
  | zero => simp
  | succ n ih => simp [List.replicate_succ, ih, Nat.succ_mul, Nat.add_comm]

/-- Indexing a concatenation of `n` copies of one block. -/
theorem getElem?_flatten_replicate {α : Type} (blk : List α) (n d k : Nat)
    (hd : d < n) (hk : k < blk.length) :
    (List.replicate n blk).flatten[d * blk.length + k]? = blk[k]? := by
  induction n generalizing d with
  | zero => omega
  | succ n ih =>
    rw [List.replicate_succ, List.flatten_cons]
    cases d with
    | zero => simp [List.getElem?_append_left hk]
    | succ d =>
      have h1 : blk.length ≤ (d + 1) * blk.length + k := by
        rw [Nat.succ_mul]; omega
      rw [List.getElem?_append_right h1]
      have h2 : (d + 1) * blk.length + k - blk.length = d * blk.length + k := by
        rw [Nat.succ_mul]; omega
      rw [h2]
      exact ih d (by omega)

/-! ## Construction: theorems -/

theorem New_length_eq (n j : Nat) : (New n j).length = n * (52 + j) := by
  rw [New_eq, length_flatten_replicate, length_oneDeck]

/-- The card at offset `k` of constituent deck `d`. -/
theorem getElem?_New (n j d k : Nat) (hd : d < n) (hk : k < 52 + j) :
    (New n j)[d * (52 + j) + k]? = (oneDeck j)[k]? := by
  rw [New_eq]
  have h := getElem?_flatten_replicate (oneDeck j) n d k hd (by rw [length_oneDeck]; exact hk)
  rw [length_oneDeck] at h
  exact h

theorem getElem?_standardCards (s r : Nat) (hs : s < 4) (hr1 : 1 ≤ r) (hr : r ≤ 13) :
    standardCards[13 * s + (r - 1)]? = some { Suit := s, Rank := r } := by
  interval_cases s <;> interval_cases r <;> rfl

theorem getElem?_New_joker (n j d i : Nat) (hd : d < n) (hi : i < j) :
    (New n j)[d * (52 + j) + 52 + i]? = some { Suit := Joker, Rank := i % 256 } := by
  rw [Nat.add_assoc, getElem?_New n j d (52 + i) hd (by omega), oneDeck]
  rw [List.getElem?_append_right (by rw [length_standardCards]; omega), length_standardCards]
  simp [jokerCards, hi]

/-- C2: in `New(n, j)` the standard cards lie deck by deck in suit order Spade,
Diamond, Club, Heart and ascending rank: for `d < n`, the `s`-th suit and a
rank `r` in `1..13`, position `d*(52+j) + 13*s + (r-1)` holds that suit and
rank. -/
theorem New_standard_layout (n j d s r : Nat) (suit : Nat) (hd : d < n)
    (hs : [Spade, Diamond, Club, Heart][s]? = some suit) (hr1 : Ace ≤ r) (hr : r ≤ King) :
    (New n j)[d * (52 + j) + 13 * s + (r - 1)]? = some { Suit := suit, Rank := r } := by
  have hs4 : s < 4 := by
    by_contra hcon
    rw [List.getElem?_eq_none (by simpa using hcon)] at hs
    exact Option.noConfusion hs
  have hsuit : suit = s := by
    interval_cases s <;> exact (Option.some.inj hs).symm
  have hr1' : 1 ≤ r := hr1
  have hr' : r ≤ 13 := hr
  rw [hsuit]
  rw [Nat.add_assoc, getElem?_New n j d (13 * s + (r - 1)) hd (by omega), oneDeck]
  rw [List.getElem?_append_left (by rw [length_standardCards]; omega)]
  exact getElem?_standardCards s r hs4 hr1' hr'

/-- Witness for C2: the last standard card of `New(1, 2)` is the King of Hearts. -/
theorem New_standard_layout_witness :
    (New 1 2)[0 * (52 + 2) + 13 * 3 + (13 - 1)]? = some { Suit := Heart, Rank := King } :=
  New_standard_layout 1 2 0 3 13 Heart (by decide) rfl (by decide) (by decide)

/-- C3 as stated fails: with 257 jokers per deck the joker of index 256 is
stored with `Rank` 0, not 256, and shares its `Rank` with the joker of index 0
of the same constituent deck. -/
theorem New_joker_rank_wraps :
    (New 1 257)[0 * (52 + 257) + 52 + 256]? ≠ some { Suit := Joker, Rank := 256 }
      ∧ (New 1 257)[0 * (52 + 257) + 52 + 256]? = some { Suit := Joker, Rank := 0 }
      ∧ (New 1 257)[0 * (52 + 257) + 52 + 0]? = some { Suit := Joker, Rank := 0 } := by
  have h256 := getElem?_New_joker 1 257 0 256 (by decide) (by decide)
  have h0 := getElem?_New_joker 1 257 0 0 (by decide) (by decide)
  refine ⟨?_, h256, h0⟩
  rw [h256]
  decide

/-- C3 (amended): for `d < n` and `i < j`, position `d*(52+j) + 52 + i` of
`New(n, j)` holds the joker with `Rank` `i mod 256`; when `j ≤ 256` this is
`Card{Joker, i}` and the jokers of one constituent deck have pairwise distinct
`Rank` values. -/
theorem New_joker_layout (n j d i : Nat) (hd : d < n) (hi : i < j) :
    (New n j)[d * (52 + j) + 52 + i]? = some { Suit := Joker, Rank := i % 256 }
      ∧ (j ≤ 256 →
          (New n j)[d * (52 + j) + 52 + i]? = some { Suit := Joker, Rank := i }
          ∧ ∀ (k : Nat) (c1 c2 : Card), k < j → k ≠ i →
              (New n j)[d * (52 + j) + 52 + i]? = some c1 →
              (New n j)[d * (52 + j) + 52 + k]? = some c2 → c1.Rank ≠ c2.Rank) := by
  refine ⟨getElem?_New_joker n j d i hd hi, fun hj => ⟨?_, ?_⟩⟩
  · rw [getElem?_New_joker n j d i hd hi, Nat.mod_eq_of_lt (by omega)]
  · intro k c1 c2 hk hne h1 h2
    rw [getElem?_New_joker n j d i hd hi] at h1
    rw [getElem?_New_joker n j d k hd hk] at h2
    injection h1 with h1
    injection h2 with h2
    subst h1 h2
    simp only [ne_eq]
    rw [Nat.mod_eq_of_lt (by omega), Nat.mod_eq_of_lt (by omega)]
    exact fun h => hne h.symm

/-- Witness for C3 (amended): the second joker of `New(1, 2)`. -/
theorem New_joker_layout_witness :
    (New 1 2)[0 * (52 + 2) + 52 + 1]? = some { Suit := Joker, Rank := 1 % 256 }
      ∧ (2 ≤ 256 →
          (New 1 2)[0 * (52 + 2) + 52 + 1]? = some { Suit := Joker, Rank := 1 }
          ∧ ∀ (k : Nat) (c1 c2 : Card), k < 2 → k ≠ 1 →
              (New 1 2)[0 * (52 + 2) + 52 + 1]? = some c1 →
              (New 1 2)[0 * (52 + 2) + 52 + k]? = some c2 → c1.Rank ≠ c2.Rank) :=
  New_joker_layout 1 2 0 1 (by decide) (by decide)

/-! ## Filtering: theorems -/

theorem GoMap.has_store (m : GoMap) (k x : Nat) :
    GoMap.has (GoMap.store m k true) x = (decide (x = k) || GoMap.has m x) := by
  unfold GoMap.has GoMap.store
  by_cases h : x = k <;> simp [h]

/-- Key presence after the loop `for _, k := range ks { m[k] = true }`. -/
theorem GoMap.has_foldl_store (ks : List Nat) (m : GoMap) (x : Nat) :
    GoMap.has (ks.foldl (fun m k => GoMap.store m k true) m) x
      = (GoMap.has m x || decide (x ∈ ks)) := by
  induction ks generalizing m with
  | nil => simp
  | cons k ks ih =>
    rw [List.foldl_cons, ih, GoMap.has_store]
    by_cases h : x = k <;> simp [h]

theorem GoMap.has_empty (x : Nat) : GoMap.has GoMap.empty x = false := rfl

theorem foldl_skip_or_append {α : Type} (p : α → Bool) (xs acc : List α) :
    xs.foldl (fun out x => if p x then out else out ++ [x]) acc
      = acc ++ xs.filter (fun x => !p x) := by
  induction xs generalizing acc with
  | nil => simp
  | cons x xs ih =>
    rw [List.foldl_cons, ih]
    by_cases h : p x <;> simp [h]

/-- The loop of `Filter` keeps the cards whose suit and rank are both absent
from the exclusion lists. -/
theorem Filter_eq_filter (d : Deck) (S : List Nat) (R : List Nat) :
    Filter d S R = d.filter (fun c => decide (c.Suit ∉ S ∧ c.Rank ∉ R)) := by
  unfold Filter
  simp only []
  have h := foldl_skip_or_append
    (fun c : Card =>
      GoMap.has (S.foldl (fun m s => GoMap.store m s true) GoMap.empty) c.Suit
        || GoMap.has (R.foldl (fun m r => GoMap.store m r true) GoMap.empty) c.Rank) d []
  simp only [Bool.or_eq_true] at h
  simp only [Bool.or_eq_true]
  rw [h, List.nil_append]
  apply List.filter_congr
  intro c _
  simp only [GoMap.has_foldl_store, GoMap.has_empty]
  by_cases h1 : c.Suit ∈ S <;> by_cases h2 : c.Rank ∈ R <;> simp [h1, h2]

/-- C4: `d.Filter(S, R)` is exactly the cards of `d`, in their original order
and multiplicity, whose suit is not in `S` and whose rank is not in `R`; it is
a subsequence of `d` and holds no card that is not in `d`. -/
theorem Filter_spec (d : Deck) (S : List Nat) (R : List Nat) :
    Filter d S R = d.filter (fun c => decide (c.Suit ∉ S ∧ c.Rank ∉ R))
      ∧ (Filter d S R).Sublist d
      ∧ (∀ c, c ∈ Filter d S R ↔ c ∈ d ∧ c.Suit ∉ S ∧ c.Rank ∉ R)
      ∧ (∀ c, (Filter d S R).count c = if c.Suit ∈ S ∨ c.Rank ∈ R then 0 else d.count c) := by
  rw [Filter_eq_filter]
  refine ⟨rfl, List.filter_sublist d, ?_, ?_⟩
  · intro c
    simp [List.mem_filter]
  · intro c
    by_cases h : c.Suit ∈ S ∨ c.Rank ∈ R
    · rw [if_pos h]
      apply List.count_eq_zero_of_not_mem
      intro hmem
      have hp := (List.mem_filter.mp hmem).2
      simp only [decide_eq_true_eq] at hp
      rcases h with h | h
      · exact hp.1 h
      · exact hp.2 h
    · rw [if_neg h]
      apply List.count_filter
      simp only [decide_eq_true_eq]
      exact ⟨fun h1 => h (Or.inl h1), fun h2 => h (Or.inr h2)⟩

theorem length_filter_flatten_replicate {α : Type} (p : α → Bool) (n : Nat) (blk : List α) :
    ((List.replicate n blk).flatten.filter p).length = n * (blk.filter p).length := by
  induction n with
  | zero => simp
  | succ n ih =>
    rw [List.replicate_succ, List.flatten_cons, List.filter_append, List.length_append, ih,
      Nat.succ_mul, Nat.add_comm]

theorem filter_jokerCards (j : Nat) (R : List Nat) :
    (jokerCards j).filter (fun c => decide (c.Suit ∉ [Joker] ∧ c.Rank ∉ R)) = [] := by
  rw [List.filter_eq_nil_iff]
  intro c hc
  obtain ⟨i, _, rfl⟩ := List.mem_map.mp hc
  simp

theorem length_filter_suitBlock (s : Nat) (hs : s ≠ Joker) (R : List Nat) :
    (((List.range' 1 13).map fun rank => ({ Suit := s, Rank := rank } : Card)).filter
      (fun c => decide (c.Suit ∉ [Joker] ∧ c.Rank ∉ R))).length
      = ((List.range' 1 13).filter (fun r => decide (r ∉ R))).length := by
  rw [List.filter_map, List.length_map]
  congr 1
  apply List.filter_congr
  intro r _
  simp [hs]

/-- Of the thirteen ranks, those absent from `R`. -/
theorem length_filter_ranks (R : List Nat) :
    ((List.range' 1 13).filter (fun r => decide (r ∉ R))).length
      = 13 - distinctStandardRanks R := by
  have hsplit := List.length_eq_countP_add_countP (fun r => decide (r ∈ R)) (List.range' 1 13)
  rw [List.countP_eq_length_filter, List.countP_eq_length_filter, List.length_range'] at hsplit
  have hperm : ((List.range' 1 13).filter (fun r => decide (r ∈ R))).Perm
      ((R.filter fun r => decide (Ace ≤ r ∧ r ≤ King)).dedup) := by
    rw [List.perm_ext_iff_of_nodup ((List.nodup_range' 1 13).filter _) (List.nodup_dedup _)]
    intro r
    simp only [List.mem_filter, List.mem_dedup, List.mem_range'_1, decide_eq_true_eq]
    have hA : Ace = 1 := rfl
    have hK : King = 13 := rfl
    rw [hA, hK]
    constructor
    · rintro ⟨⟨h1, h2⟩, hR⟩
      exact ⟨hR, h1, by omega⟩
    · rintro ⟨hR, h1, h13⟩
      exact ⟨⟨h1, by omega⟩, hR⟩
  have hk := hperm.length_eq
  unfold distinctStandardRanks
  have hcongr : (List.range' 1 13).filter (fun r => decide (r ∉ R))
      = (List.range' 1 13).filter (fun a => decide ¬decide (a ∈ R) = true) := by
    apply List.filter_congr
    intro r _
    simp
  rw [hcongr]
  omega

theorem length_filter_standardCards (R : List Nat) :
    (standardCards.filter (fun c => decide (c.Suit ∉ [Joker] ∧ c.Rank ∉ R))).length
      = 4 * (13 - distinctStandardRanks R) := by
  have h0 := length_filter_suitBlock Spade (by decide) R
  have h1 := length_filter_suitBlock Diamond (by decide) R
  have h2 := length_filter_suitBlock Club (by decide) R
  have h3 := length_filter_suitBlock Heart (by decide) R
  rw [length_filter_ranks] at h0 h1 h2 h3
  simp only [standardCards, suits, List.flatMap_cons, List.flatMap_nil, List.append_nil,
    List.filter_append, List.length_append, h0, h1, h2, h3]
  omega

/-- C9: excluding the Joker suit and a list of ranks `R` from `New(n, j)`
leaves `4 * n * (13 - k)` cards, `k` the number of distinct ranks of
`Ace..King` in `R`; for `n = 1`, `j = 2`, `R = [Two, Three]` that is 44. -/
theorem Filter_New_length (n j : Nat) (R : List Nat) :
    (Filter (New n j) [Joker] R).length = 4 * n * (13 - distinctStandardRanks R)
      ∧ (Filter (New 1 2) [Joker] [Two, Three]).length = 44 := by
  have hgen : ∀ (n j : Nat) (R : List Nat),
      (Filter (New n j) [Joker] R).length = 4 * n * (13 - distinctStandardRanks R) := by
    intro n j R
    rw [Filter_eq_filter, New_eq, length_filter_flatten_replicate, oneDeck, List.filter_append,
      filter_jokerCards, List.append_nil, length_filter_standardCards]
    rw [Nat.mul_comm 4 n, Nat.mul_assoc]
  refine ⟨hgen n j R, ?_⟩
  rw [hgen 1 2 [Two, Three]]
  decide

/-! ## Display: theorems -/

/-- C8: `Card.String` is the literal `Joker` for every Joker-suited card,
whatever its rank, and `<Rank name> of <Suit name>s` for every card of the
four standard suits with a rank in `Ace..King`; the four displayed examples
are as the spec gives them. -/
theorem Card_String_spec :
    (∀ r : Nat, Card.String { Suit := Joker, Rank := r } = "Joker")
      ∧ (∀ (s r : Nat) (suitName rankName : String),
          ["Spade", "Diamond", "Club", "Heart"][s]? = some suitName →
          ["Ace", "Two", "Three", "Four", "Five", "Six", "Seven", "Eight", "Nine", "Ten",
            "Jack", "Queen", "King"][r]? = some rankName →
          Card.String { Suit := s, Rank := r + 1 } = rankName ++ " of " ++ suitName ++ "s")
      ∧ Card.String { Suit := Heart, Rank := Ace } = "Ace of Hearts"
      ∧ Card.String { Suit := Spade, Rank := Two } = "Two of Spades"
      ∧ Card.String { Suit := Diamond, Rank := Nine } = "Nine of Diamonds"
      ∧ Card.String { Suit := Club, Rank := Jack } = "Jack of Clubs" := by
  refine ⟨fun r => rfl, ?_, by decide, by decide, by decide, by decide⟩
  intro s r suitName rankName hs hr
  have hs4 : s < 4 := by
    by_contra hcon
    rw [List.getElem?_eq_none (by simpa using hcon)] at hs
    exact Option.noConfusion hs
  have hr13 : r < 13 := by
    by_contra hcon
    rw [List.getElem?_eq_none (by simpa using hcon)] at hr
    exact Option.noConfusion hr
  interval_cases s <;> interval_cases r <;>
    (rw [← Option.some.inj hs, ← Option.some.inj hr]; decide)

/-! ## Swapping two positions -/

theorem index_natCast (d : Deck) (n : Nat) : index d (n : Int) = d[n]? := by
  simp [index]

/-- Overwriting position `k`, which held `b`, with `a` and putting `b` in
front rearranges `a :: l`. -/
theorem cons_set_perm {α : Type} (l : List α) (k : Nat) (a b : α) (hk : l[k]? = some b) :
    (b :: l.set k a).Perm (a :: l) := by
  induction l generalizing k with
  | nil => simp at hk
  | cons c t ih =>
    cases k with
    | zero =>
      simp only [List.getElem?_cons_zero, Option.some.injEq] at hk
      subst hk
      exact List.Perm.swap a c t
    | succ k =>
      simp only [List.getElem?_cons_succ] at hk
      rw [List.set_cons_succ]
      exact (List.Perm.swap c b _).trans (((ih k hk).cons c).trans (List.Perm.swap a c t))

/-- Exchanging the elements at two positions of a list rearranges it. -/
theorem set_set_perm_of_getElem? {α : Type} (l : List α) (i j : Nat) (a b : α)
    (hi : l[i]? = some a) (hj : l[j]? = some b) : ((l.set i b).set j a).Perm l := by
  induction l generalizing i j with
  | nil => simp at hi
  | cons c t ih =>
    cases i with
    | zero =>
      simp only [List.getElem?_cons_zero, Option.some.injEq] at hi
      subst hi
      cases j with
      | zero =>
        simp only [List.getElem?_cons_zero, Option.some.injEq] at hj
        subst hj
        simp
      | succ j =>
        simp only [List.getElem?_cons_succ] at hj
        simp only [List.set_cons_zero, List.set_cons_succ]
        exact cons_set_perm t j c b hj
    | succ i =>
      simp only [List.getElem?_cons_succ] at hi
      cases j with
      | zero =>
        simp only [List.getElem?_cons_zero, Option.some.injEq] at hj
        subst hj
        simp only [List.set_cons_zero, List.set_cons_succ]
        exact cons_set_perm t i c a hi
      | succ j =>
        simp only [List.getElem?_cons_succ] at hj
        simp only [List.set_cons_succ]
        exact (ih i j hi hj).cons c

/-- An in-range swap succeeds and rearranges the deck. -/
theorem swapAt_perm (d : Deck) (i j : Nat) (hi : i < d.length) (hj : j < d.length) :
    ∃ d1, swapAt d (i : Int) (j : Int) = some d1 ∧ d1.Perm d := by
  have hi' : d[i]? = some d[i] := List.getElem?_eq_getElem hi
  have hj' : d[j]? = some d[j] := List.getElem?_eq_getElem hj
  refine ⟨(d.set i d[j]).set j d[i], ?_, set_set_perm_of_getElem? d i j d[i] d[j] hi' hj'⟩
  simp [swapAt, index_natCast, hi', hj']

/-! ## Shuffling: theorems -/

theorem randShuffle_perm (draw : Nat → Nat) (i : Nat) (d : Deck) (hi : i ≤ d.length - 1) :
    ∃ d1, randShuffle draw swapAt i d = some d1 ∧ d1.Perm d := by
  induction i generalizing d with
  | zero => exact ⟨d, rfl, List.Perm.refl d⟩
  | succ i ih =>
    have hlt : draw (i + 1) % (i + 2) < i + 2 := Nat.mod_lt _ (by omega)
    obtain ⟨d1, hswap, hperm⟩ :=
      swapAt_perm d (i + 1) (draw (i + 1) % (i + 2)) (by omega) (by omega)
    have hlen : d1.length = d.length := hperm.length_eq
    obtain ⟨d2, hrest, hperm2⟩ := ih d1 (by omega)
    refine ⟨d2, ?_, hperm2.trans hperm⟩
    simp only [randShuffle, hswap]
    exact hrest

/-- C7: for every deck and every sequence of values drawn from the random
source, `Shuffle` returns and leaves the deck with the same length and the
same multiset of cards: the result is a permutation of the input. -/
theorem Shuffle_perm (draw : Nat → Nat) (d : Deck) :
    ∃ d1, Shuffle draw d = some d1 ∧ d1.length = d.length ∧ d1.Perm d
      ∧ ∀ c, d1.count c = d.count c := by
  obtain ⟨d1, h, hperm⟩ := randShuffle_perm draw (d.length - 1) d (Nat.le_refl _)
  exact ⟨d1, h, hperm.length_eq, hperm, fun c => hperm.count_eq c⟩

/-! ## Insertion sort meets the contract of `sort.Slice` -/

theorem LessOrdering.asymm {lt : Card → Card → Bool} (h : LessOrdering lt) (a b : Card)
    (hab : lt a b = true) : lt b a = false := by
  cases hba : lt b a with
  | false => rfl
  | true =>
    have haa := h.trans a b a hab hba
    rw [h.irrefl a] at haa
    exact Bool.noConfusion haa

/-- Swapping two neighbours. -/
theorem swapAt_adjacent (A R : Deck) (a x : Card) :
    swapAt (A ++ a :: x :: R) ((A.length + 1 : Nat) : Int) ((A.length : Nat) : Int)
      = some (A ++ x :: a :: R) := by
  have h1 : (A ++ a :: x :: R)[A.length + 1]? = some x := by
    rw [List.getElem?_append_right (by omega)]
    simp
  have h0 : (A ++ a :: x :: R)[A.length]? = some a := by
    rw [List.getElem?_append_right (by omega)]
    simp
  simp only [swapAt, index_natCast, h1, h0, Int.toNat_ofNat]
  congr 1
  rw [List.set_append_right _ _ (by omega)]
  rw [List.set_append_right _ _ (by simp)]
  simp

/-- The inner loop moves the element at position `j` down into the sorted
prefix: `A` is the part of the prefix not yet passed, `B` the part already
passed, `C` the rest of the slice. -/
theorem insertionInner_spec (lt : Card → Card → Bool) (less : Comparator)
    (hlt : LessOrdering lt)
    (hless : ∀ (st : Deck) (i j : Nat) (a b : Card),
      st[i]? = some a → st[j]? = some b → less st i j = some (lt a b))
    (j : Nat) (A B C : Deck) (x : Card) (hA : A.length = j)
    (hAB : (A ++ B).Pairwise (fun a b => lt b a = false))
    (hB : ∀ b ∈ B, lt x b = true) :
    ∃ P, insertionInner less j (A ++ x :: B ++ C) = some (P ++ C)
      ∧ P.Perm (A ++ x :: B) ∧ P.Pairwise (fun a b => lt b a = false) := by
  induction j generalizing A B with
  | zero =>
    have hnil : A = [] := List.length_eq_zero.mp hA
    subst hnil
    refine ⟨x :: B, by simp [insertionInner], List.Perm.refl _, ?_⟩
    rw [List.pairwise_cons]
    exact ⟨fun b hb => hlt.asymm x b (hB b hb), by simpa using hAB⟩
  | succ j ih =>
    rcases List.eq_nil_or_concat A with hnil | ⟨A1, a, hcat⟩
    · subst hnil
      simp at hA
    rw [List.concat_eq_append] at hcat
    subst hcat
    have hA1 : A1.length = j := by simpa using hA
    have hst : A1 ++ [a] ++ x :: B ++ C = A1 ++ a :: x :: (B ++ C) := by simp
    have hx : (A1 ++ a :: x :: (B ++ C))[j + 1]? = some x := by
      rw [List.getElem?_append_right (by omega), hA1]
      simp
    have ha : (A1 ++ a :: x :: (B ++ C))[j]? = some a := by
      rw [List.getElem?_append_right (by omega), hA1]
      simp
    have hcmp := hless _ (j + 1) j x a hx ha
    rw [List.append_assoc, List.singleton_append] at hAB
    cases hxa : lt x a with
    | true =>
      have hsw := swapAt_adjacent A1 (B ++ C) a x
      rw [hA1] at hsw
      have hB1 : ∀ b ∈ a :: B, lt x b = true := by
        intro b hb
        rcases List.mem_cons.mp hb with rfl | hb
        · exact hxa
        · exact hB b hb
      obtain ⟨P, hrun, hperm, hsorted⟩ := ih A1 (a :: B) hA1 hAB hB1
      refine ⟨P, ?_, ?_, hsorted⟩
      · rw [hst]
        simp only [insertionInner, hcmp, hxa, hsw]
        simpa using hrun
      · refine hperm.trans ?_
        rw [List.append_assoc, List.singleton_append]
        exact List.Perm.append_left A1 (List.Perm.swap a x B)
    | false =>
      refine ⟨A1 ++ [a] ++ x :: B, ?_, List.Perm.refl _, ?_⟩
      · rw [hst]
        simp only [insertionInner, hcmp, hxa]
      · rw [List.append_assoc, List.singleton_append]
        rw [List.pairwise_append] at hAB ⊢
        obtain ⟨hA1s, haB, hcross⟩ := hAB
        rw [List.pairwise_cons] at haB
        refine ⟨hA1s, ?_, ?_⟩
        · rw [List.pairwise_cons, List.pairwise_cons]
          refine ⟨?_, ?_, haB.2⟩
          · intro y hy
            rcases List.mem_cons.mp hy with rfl | hy
            · exact hxa
            · exact haB.1 y hy
          · intro b hb
            exact hlt.asymm x b (hB b hb)
        · intro a1 ha1 y hy
          rcases List.mem_cons.mp hy with rfl | hy
          · exact hcross a1 ha1 y (List.mem_cons_self _ _)
          rcases List.mem_cons.mp hy with rfl | hy
          · exact hlt.trans_not y a a1 hxa (hcross a1 ha1 a (List.mem_cons_self _ _))
          · exact hcross a1 ha1 y (List.mem_cons_of_mem _ hy)

/-- The outer loop: `P` is the sorted prefix, `C` the positions still to be
inserted. -/
theorem insertionOuter_spec (lt : Card → Card → Bool) (less : Comparator)
    (hlt : LessOrdering lt)
    (hless : ∀ (st : Deck) (i j : Nat) (a b : Card),
      st[i]? = some a → st[j]? = some b → less st i j = some (lt a b))
    (k i : Nat) (P C : Deck) (hP : P.length = i) (hC : C.length = k)
    (hsorted : P.Pairwise (fun a b => lt b a = false)) :
    ∃ y, insertionOuter less k i (P ++ C) = some y
      ∧ y.Perm (P ++ C) ∧ y.Pairwise (fun a b => lt b a = false) := by
  induction k generalizing i P C with
  | zero =>
    have hnil : C = [] := List.length_eq_zero.mp hC
    subst hnil
    exact ⟨P, by simp [insertionOuter], by simp, hsorted⟩
  | succ k ih =>
    cases C with
    | nil => simp at hC
    | cons x C1 =>
      have hC1 : C1.length = k := by simpa using hC
      obtain ⟨P1, hrun, hperm, hs1⟩ :=
        insertionInner_spec lt less hlt hless i P [] C1 x hP (by simpa using hsorted)
          (fun b hb => absurd hb (List.not_mem_nil b))
      have hP1 : P1.length = i + 1 := by
        rw [hperm.length_eq]
        simp [hP]
      obtain ⟨y, hrest, hperm2, hs2⟩ := ih (i + 1) P1 C1 hP1 hC1 hs1
      refine ⟨y, ?_, ?_, hs2⟩
      · simp only [List.append_assoc, List.cons_append, List.nil_append] at hrun
        simp only [insertionOuter, hrun]
        exact hrest
      · refine hperm2.trans ?_
        have h := List.Perm.append_right C1 hperm
        simpa using h

/-- The library's insertion sort is a sorter that meets the contract. -/
theorem insertionSortLessFunc_contract : SortSliceContract insertionSortLessFunc := by
  intro lt less x hlt hless
  cases x with
  | nil => exact ⟨[], rfl, List.Perm.refl _, List.Pairwise.nil⟩
  | cons a t =>
    have h := insertionOuter_spec lt less hlt hless t.length 1 [a] t rfl rfl
      (List.pairwise_singleton _ _)
    simpa [insertionSortLessFunc] using h

/-! ## Comparators and sorting: theorems -/

theorem lessOrdering_absRank_lt :
    LessOrdering (fun a b => decide (a.absRank < b.absRank)) where
  irrefl := by intro a; simp
  trans := by
    intro a b c h1 h2
    simp only [decide_eq_true_eq] at h1 h2 ⊢
    omega
  trans_not := by
    intro a b c h1 h2
    simp only [decide_eq_false_iff_not] at h1 h2 ⊢
    omega

theorem lessOrdering_absRank_gt :
    LessOrdering (fun a b => decide (a.absRank > b.absRank)) where
  irrefl := by intro a; simp
  trans := by
    intro a b c h1 h2
    simp only [decide_eq_true_eq] at h1 h2 ⊢
    omega
  trans_not := by
    intro a b c h1 h2
    simp only [decide_eq_false_iff_not] at h1 h2 ⊢
    omega

theorem Less_eq (st : Deck) (i j : Nat) (a b : Card) (hi : st[i]? = some a)
    (hj : st[j]? = some b) : Less st i j = some (decide (a.absRank < b.absRank)) := by
  simp only [Less, index_natCast, hi, hj]

theorem Greater_eq (st : Deck) (i j : Nat) (a b : Card) (hi : st[i]? = some a)
    (hj : st[j]? = some b) : Greater st i j = some (decide (a.absRank > b.absRank)) := by
  simp only [Greater, index_natCast, hi, hj]

/-- With the default comparator the sort returns a rearrangement that is
non-decreasing in `absRank`. -/
theorem Sort_nil_run (sortSlice : SliceSorter) (hS : SortSliceContract sortSlice) (d : Deck) :
    ∃ y, Deck.Sort sortSlice d none = some y ∧ y.Perm d
      ∧ y.Pairwise (fun a b => a.absRank ≤ b.absRank) := by
  obtain ⟨y, hrun, hperm, hsorted⟩ := hS _ Less d lessOrdering_absRank_lt Less_eq
  refine ⟨y, hrun, hperm, hsorted.imp ?_⟩
  intro a b h
  simp only [decide_eq_false_iff_not] at h
  omega

/-- With the comparator `d.Greater()` the sort returns a rearrangement that is
non-increasing in `absRank`. -/
theorem Sort_Greater_run (sortSlice : SliceSorter) (hS : SortSliceContract sortSlice)
    (d : Deck) :
    ∃ y, Deck.Sort sortSlice d (some Greater) = some y ∧ y.Perm d
      ∧ y.Pairwise (fun a b => a.absRank ≥ b.absRank) := by
  obtain ⟨y, hrun, hperm, hsorted⟩ := hS _ Greater d lessOrdering_absRank_gt Greater_eq
  refine ⟨y, hrun, hperm, hsorted.imp ?_⟩
  intro a b h
  simp only [decide_eq_false_iff_not] at h
  omega

theorem pairwise_getElem? {α : Type} {R : α → α → Prop} {l : List α} (h : l.Pairwise R)
    (i j : Nat) (a b : α) (hij : i < j) (hi : l[i]? = some a) (hj : l[j]? = some b) :
    R a b := by
  obtain ⟨hi1, rfl⟩ := List.getElem?_eq_some_iff.mp hi
  obtain ⟨hj1, rfl⟩ := List.getElem?_eq_some_iff.mp hj
  exact List.pairwise_iff_getElem.mp h i j hi1 hj1 hij

/-- C5: for every deck, `Sort(nil)` (the comparator defaults to `d.Less()`)
returns and leaves the cards non-decreasing in `absRank`: for positions
`i < j` of the sorted deck, `absRank(d[i]) ≤ absRank(d[j])`.  The sorter is any
implementation of `sort.Slice` that meets its documented contract. -/
theorem Sort_nil_sorted (sortSlice : SliceSorter) (hS : SortSliceContract sortSlice)
    (d : Deck) :
    ∃ y, Deck.Sort sortSlice d none = some y
      ∧ ∀ (i j : Nat) (a b : Card), i < j → y[i]? = some a → y[j]? = some b →
          a.absRank ≤ b.absRank := by
  obtain ⟨y, hrun, _, hsorted⟩ := Sort_nil_run sortSlice hS d
  exact ⟨y, hrun, fun i j a b hij hi hj => pairwise_getElem? hsorted i j a b hij hi hj⟩

/-- Witness for C5: the library's insertion sort meets the contract, and the
three-card deck King of Hearts, Ace of Spades, Joker is sorted by it. -/
theorem Sort_nil_sorted_witness :
    SortSliceContract insertionSortLessFunc
      ∧ ∃ y, Deck.Sort insertionSortLessFunc
          [{ Suit := Heart, Rank := King }, { Suit := Spade, Rank := Ace },
            { Suit := Joker, Rank := 0 }] none = some y
        ∧ ∀ (i j : Nat) (a b : Card), i < j → y[i]? = some a → y[j]? = some b →
            a.absRank ≤ b.absRank :=
  ⟨insertionSortLessFunc_contract,
    Sort_nil_sorted insertionSortLessFunc insertionSortLessFunc_contract _⟩

/-- C6: `Sort` only reorders the deck: after `d.Sort(nil)` and after
`d.Sort(d.Greater())` the deck has the same length and the same multiset of
cards as before.  The sorter is any implementation of `sort.Slice` that meets
its documented contract. -/
theorem Sort_perm (sortSlice : SliceSorter) (hS : SortSliceContract sortSlice) (d : Deck) :
    (∃ y, Deck.Sort sortSlice d none = some y ∧ y.length = d.length ∧ y.Perm d
        ∧ ∀ c, y.count c = d.count c)
      ∧ (∃ y, Deck.Sort sortSlice d (some Greater) = some y ∧ y.length = d.length ∧ y.Perm d
        ∧ ∀ c, y.count c = d.count c) := by
  obtain ⟨y1, hrun1, hperm1, _⟩ := Sort_nil_run sortSlice hS d
  obtain ⟨y2, hrun2, hperm2, _⟩ := Sort_Greater_run sortSlice hS d
  exact ⟨⟨y1, hrun1, hperm1.length_eq, hperm1, fun c => hperm1.count_eq c⟩,
    ⟨y2, hrun2, hperm2.length_eq, hperm2, fun c => hperm2.count_eq c⟩⟩

/-- Witness for C6: the library's insertion sort on a three-card deck. -/
theorem Sort_perm_witness :
    SortSliceContract insertionSortLessFunc
      ∧ (∃ y, Deck.Sort insertionSortLessFunc
            [{ Suit := Club, Rank := Two }, { Suit := Joker, Rank := 1 },
              { Suit := Spade, Rank := Ten }] none = some y
          ∧ y.length = [({ Suit := Club, Rank := Two } : Card), { Suit := Joker, Rank := 1 },
              { Suit := Spade, Rank := Ten }].length
          ∧ y.Perm [{ Suit := Club, Rank := Two }, { Suit := Joker, Rank := 1 },
              { Suit := Spade, Rank := Ten }]
          ∧ ∀ c, y.count c = [({ Suit := Club, Rank := Two } : Card),
              { Suit := Joker, Rank := 1 }, { Suit := Spade, Rank := Ten }].count c)
      ∧ (∃ y, Deck.Sort insertionSortLessFunc
            [{ Suit := Club, Rank := Two }, { Suit := Joker, Rank := 1 },
              { Suit := Spade, Rank := Ten }] (some Greater) = some y
          ∧ y.length = [({ Suit := Club, Rank := Two } : Card), { Suit := Joker, Rank := 1 },
              { Suit := Spade, Rank := Ten }].length
          ∧ y.Perm [{ Suit := Club, Rank := Two }, { Suit := Joker, Rank := 1 },
              { Suit := Spade, Rank := Ten }]
          ∧ ∀ c, y.count c = [({ Suit := Club, Rank := Two } : Card),
              { Suit := Joker, Rank := 1 }, { Suit := Spade, Rank := Ten }].count c) :=
  ⟨insertionSortLessFunc_contract,
    Sort_perm insertionSortLessFunc insertionSortLessFunc_contract _⟩

/-! ## The lowest card of a fresh deck -/

theorem mem_New (n j : Nat) (c : Card) : c ∈ New n j ↔ n ≠ 0 ∧ c ∈ oneDeck j := by
  rw [New_eq, List.mem_flatten]
  constructor
  · rintro ⟨blk, hblk, hc⟩
    obtain ⟨hn, rfl⟩ := List.mem_replicate.mp hblk
    exact ⟨hn, hc⟩
  · rintro ⟨hn, hc⟩
    exact ⟨oneDeck j, List.mem_replicate.mpr ⟨hn, rfl⟩, hc⟩

theorem absRank_standardCards :
    ∀ c ∈ standardCards,
      1 ≤ c.absRank ∧ (c.absRank ≤ 1 → c = { Suit := Spade, Rank := Ace }) := by
  decide

theorem absRank_jokerCards (j : Nat) : ∀ c ∈ jokerCards j, 52 ≤ c.absRank := by
  intro c hc
  obtain ⟨i, _, rfl⟩ := List.mem_map.mp hc
  simp only [Card.absRank, Joker, maxRank, King]
  omega

/-- The Ace of Spades is the only card of a fresh deck with `absRank` at most 1. -/
theorem absRank_le_one_of_mem_New (n j : Nat) (c : Card) (hc : c ∈ New n j)
    (h1 : c.absRank ≤ 1) : c = { Suit := Spade, Rank := Ace } := by
  have hmem := ((mem_New n j c).mp hc).2
  rw [oneDeck, List.mem_append] at hmem
  rcases hmem with hstd | hjok
  · exact (absRank_standardCards c hstd).2 h1
  · have := absRank_jokerCards j c hjok
    omega

theorem spadeAce_mem_New (n j : Nat) (hn : 1 ≤ n) :
    ({ Suit := Spade, Rank := Ace } : Card) ∈ New n j := by
  rw [mem_New, oneDeck, List.mem_append]
  exact ⟨by omega, Or.inl (by decide)⟩

/-- C10: for `n ≥ 1` and every `j`, after `New(n, j)` is sorted with the
default comparator the first card of the deck is the Ace of Spades.  The
sorter is any implementation of `sort.Slice` that meets its documented
contract. -/
theorem Sort_nil_first (sortSlice : SliceSorter) (hS : SortSliceContract sortSlice)
    (n j : Nat) (hn : 1 ≤ n) :
    ∃ y, Deck.Sort sortSlice (New n j) none = some y
      ∧ y[0]? = some { Suit := Spade, Rank := Ace } := by
  obtain ⟨y, hrun, hperm, hsorted⟩ := Sort_nil_run sortSlice hS (New n j)
  refine ⟨y, hrun, ?_⟩
  have hmem : ({ Suit := Spade, Rank := Ace } : Card) ∈ y :=
    hperm.mem_iff.mpr (spadeAce_mem_New n j hn)
  cases y with
  | nil => simp at hmem
  | cons h t =>
    rw [List.getElem?_cons_zero]
    congr 1
    rcases List.mem_cons.mp hmem with heq | htail
    · exact heq.symm
    · have hle := (List.pairwise_cons.mp hsorted).1 _ htail
      have hin : h ∈ New n j := hperm.mem_iff.mp (List.mem_cons_self h t)
      exact absRank_le_one_of_mem_New n j h hin hle

/-- Witness for C10: the library's insertion sort on `New(1, 2)`. -/
theorem Sort_nil_first_witness :
    SortSliceContract insertionSortLessFunc ∧ 1 ≤ 1
      ∧ ∃ y, Deck.Sort insertionSortLessFunc (New 1 2) none = some y
        ∧ y[0]? = some { Suit := Spade, Rank := Ace } :=
  ⟨insertionSortLessFunc_contract, Nat.le_refl 1,
    Sort_nil_first insertionSortLessFunc insertionSortLessFunc_contract 1 2 (Nat.le_refl 1)⟩

/-! ## The highest card of a fresh deck -/

theorem absRank_standardCards_le : ∀ c ∈ standardCards, c.absRank ≤ 52 := by
  decide

theorem mem_jokerCards (j : Nat) (c : Card) :
    c ∈ jokerCards j ↔ ∃ i, i < j ∧ c = { Suit := Joker, Rank := i % 256 } := by
  unfold jokerCards
  rw [List.mem_map]
  constructor
  · rintro ⟨i, hi, rfl⟩
    exact ⟨i, List.mem_range.mp hi, rfl⟩
  · rintro ⟨i, hi, rfl⟩
    exact ⟨i, List.mem_range.mpr hi, rfl⟩

theorem absRank_joker (m : Nat) :
    Card.absRank { Suit := Joker, Rank := m } = 52 + (m : Int) := by
  simp only [Card.absRank, Joker, maxRank, King]
  omega

/-- With between 2 and 256 jokers per deck, the joker of index `j - 1` is the
only card of a fresh deck whose `absRank` reaches `52 + (j - 1)`. -/
theorem top_of_mem_New (n j : Nat) (hj2 : 2 ≤ j) (hj : j ≤ 256) (c : Card)
    (hc : c ∈ New n j) (hge : 52 + ((j - 1 : Nat) : Int) ≤ c.absRank) :
    c = { Suit := Joker, Rank := j - 1 } := by
  have hmem := ((mem_New n j c).mp hc).2
  rw [oneDeck, List.mem_append] at hmem
  rcases hmem with hstd | hjok
  · have := absRank_standardCards_le c hstd
    omega
  · obtain ⟨i, hi, rfl⟩ := (mem_jokerCards j c).mp hjok
    rw [absRank_joker] at hge
    have hmod : i % 256 = i := Nat.mod_eq_of_lt (by omega)
    rw [hmod] at hge ⊢
    have : i = j - 1 := by omega
    rw [this]

theorem topJoker_mem_New (n j : Nat) (hn : 1 ≤ n) (hj1 : 1 ≤ j) (hj : j ≤ 256) :
    ({ Suit := Joker, Rank := j - 1 } : Card) ∈ New n j := by
  rw [mem_New, oneDeck, List.mem_append]
  refine ⟨by omega, Or.inr ((mem_jokerCards j _).mpr ⟨j - 1, by omega, ?_⟩)⟩
  rw [Nat.mod_eq_of_lt (by omega)]

/-- C11: for `n ≥ 1` and `2 ≤ j ≤ 256`, after `New(n, j)` is sorted with the
descending comparator `deck.Greater()` the first card is the highest-indexed
joker `Card{Joker, j-1}`.  The sorter is any implementation of `sort.Slice`
that meets its documented contract. -/
theorem Sort_Greater_first (sortSlice : SliceSorter) (hS : SortSliceContract sortSlice)
    (n j : Nat) (hn : 1 ≤ n) (hj2 : 2 ≤ j) (hj : j ≤ 256) :
    ∃ y, Deck.Sort sortSlice (New n j) (some Greater) = some y
      ∧ y[0]? = some { Suit := Joker, Rank := j - 1 } := by
  obtain ⟨y, hrun, hperm, hsorted⟩ := Sort_Greater_run sortSlice hS (New n j)
  refine ⟨y, hrun, ?_⟩
  have hmem : ({ Suit := Joker, Rank := j - 1 } : Card) ∈ y :=
    hperm.mem_iff.mpr (topJoker_mem_New n j hn (by omega) hj)
  cases y with
  | nil => simp at hmem
  | cons h t =>
    rw [List.getElem?_cons_zero]
    congr 1
    rcases List.mem_cons.mp hmem with heq | htail
    · exact heq.symm
    · have hge := (List.pairwise_cons.mp hsorted).1 _ htail
      rw [absRank_joker] at hge
      have hin : h ∈ New n j := hperm.mem_iff.mp (List.mem_cons_self h t)
      exact top_of_mem_New n j hj2 hj h hin hge

/-- Witness for C11: for `n = 1`, `j = 2` and the library's insertion sort the
first card is `Card{Joker, Rank(1)}`. -/
theorem Sort_Greater_first_witness :
    SortSliceContract insertionSortLessFunc ∧ 1 ≤ 1 ∧ 2 ≤ 2 ∧ 2 ≤ 256
      ∧ ∃ y, Deck.Sort insertionSortLessFunc (New 1 2) (some Greater) = some y
        ∧ y[0]? = some { Suit := Joker, Rank := 1 } :=
  ⟨insertionSortLessFunc_contract, Nat.le_refl 1, Nat.le_refl 2, by decide,
    Sort_Greater_first insertionSortLessFunc insertionSortLessFunc_contract 1 2
      (Nat.le_refl 1) (Nat.le_refl 2) (by decide)⟩

/-- C17: for every deck, `Sort(d.Greater())` returns and leaves the cards
non-increasing in `absRank`: for positions `i < j` of the sorted deck,
`absRank(d[i]) ≥ absRank(d[j])`.  The sorter is any implementation of
`sort.Slice` that meets its documented contract. -/
theorem Sort_Greater_sorted (sortSlice : SliceSorter) (hS : SortSliceContract sortSlice)
    (d : Deck) :
    ∃ y, Deck.Sort sortSlice d (some Greater) = some y
      ∧ ∀ (i j : Nat) (a b : Card), i < j → y[i]? = some a → y[j]? = some b →
          a.absRank ≥ b.absRank := by
  obtain ⟨y, hrun, _, hsorted⟩ := Sort_Greater_run sortSlice hS d
  exact ⟨y, hrun, fun i j a b hij hi hj => pairwise_getElem? hsorted i j a b hij hi hj⟩

/-- Witness for C17: the library's insertion sort meets the contract, and the
three-card deck Ace of Spades, Joker, King of Hearts is sorted by it. -/
theorem Sort_Greater_sorted_witness :
    SortSliceContract insertionSortLessFunc
      ∧ ∃ y, Deck.Sort insertionSortLessFunc
          [{ Suit := Spade, Rank := Ace }, { Suit := Joker, Rank := 1 },
            { Suit := Heart, Rank := King }] (some Greater) = some y
        ∧ ∀ (i j : Nat) (a b : Card), i < j → y[i]? = some a → y[j]? = some b →
            a.absRank ≥ b.absRank :=
  ⟨insertionSortLessFunc_contract,
    Sort_Greater_sorted insertionSortLessFunc insertionSortLessFunc_contract _⟩

/-! ## The cards of a fresh deck and their `absRank` -/

theorem mem_standardCards (c : Card) :
    c ∈ standardCards ↔ c.Suit ≤ 3 ∧ 1 ≤ c.Rank ∧ c.Rank ≤ 13 := by
  obtain ⟨s, r⟩ := c
  simp only [standardCards, suits, Spade, Diamond, Club, Heart, List.mem_flatMap, List.mem_map,
    List.mem_range'_1, List.mem_cons, List.mem_singleton, Card.mk.injEq, List.not_mem_nil,
    or_false]
  constructor
  · rintro ⟨s1, hs1, r1, hr1, rfl, rfl⟩
    omega
  · rintro ⟨hs, h1, h13⟩
    exact ⟨s, by omega, r, by omega, rfl, rfl⟩

theorem absRank_eq (c : Card) : c.absRank = (c.Suit : Int) * 13 + (c.Rank : Int) := rfl

/-- C12 as stated fails: the King of Hearts and the joker of index 0 both occur
in `New(1, 1)`, are distinct cards, and have the same `absRank` 52. -/
theorem absRank_tie_heartKing_joker :
    ({ Suit := Heart, Rank := King } : Card) ∈ New 1 1
      ∧ ({ Suit := Joker, Rank := 0 } : Card) ∈ New 1 1
      ∧ Card.absRank { Suit := Heart, Rank := King } = Card.absRank { Suit := Joker, Rank := 0 }
      ∧ ({ Suit := Heart, Rank := King } : Card) ≠ { Suit := Joker, Rank := 0 } := by
  decide

/-- C12 (amended): two cards that occur in `New(n, j)` and have the same
`absRank` are equal, unless one is the King of Hearts and the other the joker
stored with `Rank` 0, which tie at 52; without jokers `absRank` never ties on
distinct cards. -/
theorem absRank_inj_on_New (n j : Nat) (c1 c2 : Card) (h1 : c1 ∈ New n j)
    (h2 : c2 ∈ New n j) (heq : c1.absRank = c2.absRank) :
    (c1 = c2
        ∨ (c1 = { Suit := Heart, Rank := King } ∧ c2 = { Suit := Joker, Rank := 0 })
        ∨ (c1 = { Suit := Joker, Rank := 0 } ∧ c2 = { Suit := Heart, Rank := King }))
      ∧ (j = 0 → c1 = c2) := by
  have hm1 := ((mem_New n j c1).mp h1).2
  have hm2 := ((mem_New n j c2).mp h2).2
  rw [oneDeck, List.mem_append, mem_standardCards, mem_jokerCards] at hm1 hm2
  rw [absRank_eq, absRank_eq] at heq
  obtain ⟨s1, r1⟩ := c1
  obtain ⟨s2, r2⟩ := c2
  simp only [Card.mk.injEq, Heart, King, Joker] at hm1 hm2 heq ⊢
  rcases hm1 with hstd1 | ⟨i1, hi1, hs1, hr1⟩ <;> rcases hm2 with hstd2 | ⟨i2, hi2, hs2, hr2⟩
  · omega
  · subst hs2 hr2
    omega
  · subst hs1 hr1
    omega
  · subst hs1 hr1 hs2 hr2
    omega

/-- Witness for C12 (amended): the King of Hearts against the joker of index 0
in `New(1, 1)`. -/
theorem absRank_inj_on_New_witness :
    ((({ Suit := Heart, Rank := King } : Card) = { Suit := Joker, Rank := 0 })
        ∨ (({ Suit := Heart, Rank := King } : Card) = { Suit := Heart, Rank := King }
          ∧ ({ Suit := Joker, Rank := 0 } : Card) = { Suit := Joker, Rank := 0 })
        ∨ (({ Suit := Heart, Rank := King } : Card) = { Suit := Joker, Rank := 0 }
          ∧ ({ Suit := Joker, Rank := 0 } : Card) = { Suit := Heart, Rank := King }))
      ∧ (1 = 0 → ({ Suit := Heart, Rank := King } : Card) = { Suit := Joker, Rank := 0 }) :=
  absRank_inj_on_New 1 1 { Suit := Heart, Rank := King } { Suit := Joker, Rank := 0 }
    (by decide) (by decide) (by decide)

/-! ## Multiplicity of the standard cards -/

theorem nodup_standardCards : standardCards.Nodup := by
  decide

theorem count_flatten_replicate {α : Type} [DecidableEq α] (a : α) (n : Nat) (blk : List α) :
    (List.replicate n blk).flatten.count a = n * blk.count a := by
  induction n with
  | zero => simp
  | succ n ih =>
    rw [List.replicate_succ, List.flatten_cons, List.count_append, ih, Nat.succ_mul,
      Nat.add_comm]

theorem count_standard_oneDeck (j s r : Nat) (hs : s ≤ 3) (hr1 : 1 ≤ r) (hr : r ≤ 13) :
    (oneDeck j).count { Suit := s, Rank := r } = 1 := by
  have hmem : ({ Suit := s, Rank := r } : Card) ∈ standardCards :=
    (mem_standardCards _).mpr ⟨hs, hr1, hr⟩
  have hnot : ({ Suit := s, Rank := r } : Card) ∉ jokerCards j := by
    rw [mem_jokerCards]
    rintro ⟨i, _, heq⟩
    simp only [Card.mk.injEq, Joker] at heq
    omega
  rw [oneDeck, List.count_append, List.count_eq_one_of_mem nodup_standardCards hmem,
    List.count_eq_zero_of_not_mem hnot]

theorem suit_le_of_mem {s : Nat} (hs : s ∈ [Spade, Diamond, Club, Heart]) : s ≤ 3 := by
  simp only [List.mem_cons, List.mem_singleton, List.not_mem_nil, or_false, Spade, Diamond,
    Club, Heart] at hs
  omega

/-- C13: `New(1, 0)` has no duplicate cards and contains every one of the
4 x 13 pairs of a standard suit and a rank in `Ace..King`; for every `n` and
`j` each of these 52 cards occurs exactly `n` times in `New(n, j)`. -/
theorem New_standard_counts (n j : Nat) :
    (New 1 0).Nodup
      ∧ (New 1 0).length = 4 * 13
      ∧ (∀ s r : Nat, s ∈ [Spade, Diamond, Club, Heart] → Ace ≤ r → r ≤ King →
          ({ Suit := s, Rank := r } : Card) ∈ New 1 0)
      ∧ (∀ s r : Nat, s ∈ [Spade, Diamond, Club, Heart] → Ace ≤ r → r ≤ King →
          (New n j).count { Suit := s, Rank := r } = n) := by
  have h10 : New 1 0 = standardCards := by
    simp [New_eq, oneDeck, jokerCards]
  refine ⟨?_, ?_, ?_, ?_⟩
  · rw [h10]
    exact nodup_standardCards
  · rw [h10]
    exact length_standardCards
  · intro s r hs hr1 hr
    rw [h10]
    exact (mem_standardCards _).mpr ⟨suit_le_of_mem hs, hr1, hr⟩
  · intro s r hs hr1 hr
    rw [New_eq, count_flatten_replicate, count_standard_oneDeck j s r (suit_le_of_mem hs) hr1 hr,
      Nat.mul_one]

/-! ## Algebra of `Filter` -/

/-- C14: filtering with an empty list of suits and an empty list of ranks
returns a deck equal to the input in content and order. -/
theorem Filter_nil_nil (d : Deck) : Filter d [] [] = d := by
  rw [Filter_eq_filter]
  simp

/-- C19: filters compose by uniting their exclusions,
`d.Filter(S1, R1).Filter(S2, R2) = d.Filter(S1 ++ S2, R1 ++ R2)`; in
particular `Filter` is idempotent and two filters may be applied in either
order. -/
theorem Filter_Filter (d : Deck) (S1 S2 : List Nat) (R1 R2 : List Nat) :
    Filter (Filter d S1 R1) S2 R2 = Filter d (S1 ++ S2) (R1 ++ R2)
      ∧ Filter (Filter d S1 R1) S1 R1 = Filter d S1 R1
      ∧ Filter (Filter d S1 R1) S2 R2 = Filter (Filter d S2 R2) S1 R1 := by
  have hcomp : ∀ (S1 S2 R1 R2 : List Nat),
      Filter (Filter d S1 R1) S2 R2
        = d.filter (fun c => decide ((c.Suit ∉ S1 ∧ c.Rank ∉ R1) ∧ c.Suit ∉ S2 ∧ c.Rank ∉ R2)) := by
    intro S1 S2 R1 R2
    rw [Filter_eq_filter, Filter_eq_filter, List.filter_filter]
    apply List.filter_congr
    intro c _
    by_cases a1 : c.Suit ∈ S1 <;> by_cases a2 : c.Rank ∈ R1 <;> by_cases a3 : c.Suit ∈ S2 <;>
      by_cases a4 : c.Rank ∈ R2 <;> simp [a1, a2, a3, a4]
  refine ⟨?_, ?_, ?_⟩
  · rw [hcomp, Filter_eq_filter]
    apply List.filter_congr
    intro c _
    by_cases a1 : c.Suit ∈ S1 <;> by_cases a2 : c.Rank ∈ R1 <;> by_cases a3 : c.Suit ∈ S2 <;>
      by_cases a4 : c.Rank ∈ R2 <;> simp [a1, a2, a3, a4]
  · rw [hcomp, Filter_eq_filter]
    apply List.filter_congr
    intro c _
    by_cases a1 : c.Suit ∈ S1 <;> by_cases a2 : c.Rank ∈ R1 <;> simp [a1, a2]
  · rw [hcomp, hcomp]
    apply List.filter_congr
    intro c _
    by_cases a1 : c.Suit ∈ S1 <;> by_cases a2 : c.Rank ∈ R1 <;> by_cases a3 : c.Suit ∈ S2 <;>
      by_cases a4 : c.Rank ∈ R2 <;> simp [a1, a2, a3, a4]

/-! ## The comparators -/

/-- C15: for positions `0 ≤ i, j < len(d)` both comparators evaluate without
failing; `d.Less()(i, j)` is true iff `absRank(d[i]) < absRank(d[j])`, where
`absRank(c) = suit(c) * 13 + rank(c)`, and `d.Greater()(i, j)` equals
`d.Less()(j, i)`. -/
theorem Less_Greater_spec (d : Deck) (i j : Int) (hi0 : 0 ≤ i) (hi : i < d.length)
    (hj0 : 0 ≤ j) (hj : j < d.length) :
    ∃ a b, index d i = some a ∧ index d j = some b
      ∧ a.absRank = (a.Suit : Int) * 13 + (a.Rank : Int)
      ∧ b.absRank = (b.Suit : Int) * 13 + (b.Rank : Int)
      ∧ (∃ r, Less d i j = some r ∧ (r = true ↔ a.absRank < b.absRank))
      ∧ (∃ r, Greater d i j = some r ∧ (r = true ↔ a.absRank > b.absRank))
      ∧ Greater d i j = Less d j i := by
  obtain ⟨m, rfl⟩ := Int.eq_ofNat_of_zero_le hi0
  obtain ⟨k, rfl⟩ := Int.eq_ofNat_of_zero_le hj0
  have hm : m < d.length := by omega
  have hk : k < d.length := by omega
  have hm1 : d[m]? = some d[m] := List.getElem?_eq_getElem hm
  have hk1 : d[k]? = some d[k] := List.getElem?_eq_getElem hk
  refine ⟨d[m], d[k], ?_, ?_, rfl, rfl, ?_, ?_, ?_⟩
  · rw [index_natCast, hm1]
  · rw [index_natCast, hk1]
  · exact ⟨_, Less_eq d m k _ _ hm1 hk1, by simp⟩
  · exact ⟨_, Greater_eq d m k _ _ hm1 hk1, by simp⟩
  · rw [Greater_eq d m k _ _ hm1 hk1, Less_eq d k m _ _ hk1 hm1]

/-- Witness for C15: the Ace of Spades against a joker in a two-card deck. -/
theorem Less_Greater_spec_witness :
    ∃ a b, index [{ Suit := Spade, Rank := Ace }, { Suit := Joker, Rank := 0 }] 0 = some a
      ∧ index [{ Suit := Spade, Rank := Ace }, { Suit := Joker, Rank := 0 }] 1 = some b
      ∧ a.absRank = (a.Suit : Int) * 13 + (a.Rank : Int)
      ∧ b.absRank = (b.Suit : Int) * 13 + (b.Rank : Int)
      ∧ (∃ r, Less [{ Suit := Spade, Rank := Ace }, { Suit := Joker, Rank := 0 }] 0 1 = some r
          ∧ (r = true ↔ a.absRank < b.absRank))
      ∧ (∃ r, Greater [{ Suit := Spade, Rank := Ace }, { Suit := Joker, Rank := 0 }] 0 1 = some r
          ∧ (r = true ↔ a.absRank > b.absRank))
      ∧ Greater [{ Suit := Spade, Rank := Ace }, { Suit := Joker, Rank := 0 }] 0 1
          = Less [{ Suit := Spade, Rank := Ace }, { Suit := Joker, Rank := 0 }] 1 0 :=
  Less_Greater_spec [{ Suit := Spade, Rank := Ace }, { Suit := Joker, Rank := 0 }] 0 1
    (by decide) (by decide) (by decide) (by decide)

/-- C16: on the 52 standard cards `absRank` orders by suit first and rank
second; `absRank(Spade Ace) = 1`, `absRank(Heart King) = 52`, and `absRank` is
a bijection from the standard cards onto `1..52`. -/
theorem absRank_standard_order :
    (∀ c1 c2 : Card,
        c1.Suit ∈ [Spade, Diamond, Club, Heart] → Ace ≤ c1.Rank → c1.Rank ≤ King →
        c2.Suit ∈ [Spade, Diamond, Club, Heart] → Ace ≤ c2.Rank → c2.Rank ≤ King →
        (c1.absRank < c2.absRank
          ↔ c1.Suit < c2.Suit ∨ (c1.Suit = c2.Suit ∧ c1.Rank < c2.Rank)))
      ∧ Card.absRank { Suit := Spade, Rank := Ace } = 1
      ∧ Card.absRank { Suit := Heart, Rank := King } = 52
      ∧ (∀ c : Card, c.Suit ∈ [Spade, Diamond, Club, Heart] → Ace ≤ c.Rank → c.Rank ≤ King →
          1 ≤ c.absRank ∧ c.absRank ≤ 52)
      ∧ (∀ c1 c2 : Card,
          c1.Suit ∈ [Spade, Diamond, Club, Heart] → Ace ≤ c1.Rank → c1.Rank ≤ King →
          c2.Suit ∈ [Spade, Diamond, Club, Heart] → Ace ≤ c2.Rank → c2.Rank ≤ King →
          c1.absRank = c2.absRank → c1 = c2)
      ∧ (∀ k : Int, 1 ≤ k → k ≤ 52 →
          ∃ c : Card, c.Suit ∈ [Spade, Diamond, Club, Heart] ∧ Ace ≤ c.Rank ∧ c.Rank ≤ King
            ∧ c.absRank = k) := by
  have hA : Ace = 1 := rfl
  have hK : King = 13 := rfl
  refine ⟨?_, by decide, by decide, ?_, ?_, ?_⟩
  · intro c1 c2 hs1 ha1 hk1 hs2 ha2 hk2
    have h1 := suit_le_of_mem hs1
    have h2 := suit_le_of_mem hs2
    rw [hA] at ha1 ha2
    rw [hK] at hk1 hk2
    rw [absRank_eq, absRank_eq]
    omega
  · intro c hs ha hk
    have h1 := suit_le_of_mem hs
    rw [hA] at ha
    rw [hK] at hk
    rw [absRank_eq]
    omega
  · intro c1 c2 hs1 ha1 hk1 hs2 ha2 hk2 heq
    have h1 := suit_le_of_mem hs1
    have h2 := suit_le_of_mem hs2
    rw [hA] at ha1 ha2
    rw [hK] at hk1 hk2
    rw [absRank_eq, absRank_eq] at heq
    obtain ⟨s1, r1⟩ := c1
    obtain ⟨s2, r2⟩ := c2
    simp only [Card.mk.injEq] at *
    omega
  · intro k hk1 hk52
    obtain ⟨m, rfl⟩ := Int.eq_ofNat_of_zero_le (by omega : (0 : Int) ≤ k)
    refine ⟨{ Suit := (m - 1) / 13, Rank := (m - 1) % 13 + 1 }, ?_, ?_, ?_, ?_⟩
    · have hlt : (m - 1) / 13 < 4 := by omega
      simp only [Spade, Diamond, Club, Heart, List.mem_cons, List.mem_singleton,
        List.not_mem_nil, or_false]
      omega
    · show 1 ≤ (m - 1) % 13 + 1
      omega
    · show (m - 1) % 13 + 1 ≤ 13
      omega
    · rw [absRank_eq]
      show (((m - 1) / 13 : Nat) : Int) * 13 + (((m - 1) % 13 + 1 : Nat) : Int) = (m : Int)
      omega

/-! ## Construction order against sort order -/

theorem pairwise_absRank_standardCards :
    standardCards.Pairwise (fun a b => a.absRank ≤ b.absRank) := by
  decide

theorem pairwise_absRank_jokerCards (j : Nat) (hj : j ≤ 256) :
    (jokerCards j).Pairwise (fun a b => a.absRank ≤ b.absRank) := by
  unfold jokerCards
  rw [List.pairwise_map]
  refine (List.pairwise_lt_range j).imp_of_mem ?_
  intro a b ha hb hab
  have ha1 := List.mem_range.mp ha
  have hb1 := List.mem_range.mp hb
  rw [absRank_joker, absRank_joker, Nat.mod_eq_of_lt (by omega), Nat.mod_eq_of_lt (by omega)]
  omega

theorem New_one_eq (j : Nat) : New 1 j = oneDeck j := by
  simp [New_eq]

/-- C18: for `j ≤ 256` the cards of `New(1, j)` are non-decreasing in `absRank`
in their construction order, whereas for `n ≥ 2` the deck `New(n, j)` is not:
the King of Hearts of the first constituent deck comes before the Ace of
Spades of the second. -/
theorem New_one_sorted (j : Nat) (hj : j ≤ 256) :
    (∀ (i k : Nat) (a b : Card), i < k → (New 1 j)[i]? = some a → (New 1 j)[k]? = some b →
        a.absRank ≤ b.absRank)
      ∧ (∀ n m : Nat, 2 ≤ n →
          ∃ (i k : Nat) (a b : Card), i < k ∧ (New n m)[i]? = some a ∧ (New n m)[k]? = some b
            ∧ ¬ a.absRank ≤ b.absRank) := by
  constructor
  · have hsorted : (New 1 j).Pairwise (fun a b => a.absRank ≤ b.absRank) := by
      rw [New_one_eq, oneDeck, List.pairwise_append]
      refine ⟨pairwise_absRank_standardCards, pairwise_absRank_jokerCards j hj, ?_⟩
      intro a ha b hb
      have h1 := absRank_standardCards_le a ha
      have h2 := absRank_jokerCards j b hb
      omega
    intro i k a b hik hi hk
    exact pairwise_getElem? hsorted i k a b hik hi hk
  · intro n m hn
    refine ⟨51, 1 * (52 + m) + 0, { Suit := Heart, Rank := King },
      { Suit := Spade, Rank := Ace }, by omega, ?_, ?_, by decide⟩
    · have h := getElem?_New n m 0 51 (by omega) (by omega)
      rw [Nat.zero_mul, Nat.zero_add] at h
      rw [h, oneDeck, List.getElem?_append_left (by rw [length_standardCards]; omega)]
      rfl
    · rw [getElem?_New n m 1 0 (by omega) (by omega), oneDeck,
        List.getElem?_append_left (by rw [length_standardCards]; omega)]
      rfl

/-- Witness for C18: `New(1, 2)` is in default sort order, and `New(n, m)` is
not for `n ≥ 2`. -/
theorem New_one_sorted_witness :
    2 ≤ 256
      ∧ (∀ (i k : Nat) (a b : Card), i < k → (New 1 2)[i]? = some a → (New 1 2)[k]? = some b →
          a.absRank ≤ b.absRank)
      ∧ (∀ n m : Nat, 2 ≤ n →
          ∃ (i k : Nat) (a b : Card), i < k ∧ (New n m)[i]? = some a ∧ (New n m)[k]? = some b
            ∧ ¬ a.absRank ≤ b.absRank) :=
  ⟨by decide, New_one_sorted 2 (by decide)⟩

/-! ## Excluding a rank also excludes a joker -/

theorem length_filter_standardCards_ace :
    (standardCards.filter (fun c => decide (c.Suit ∉ ([] : List Nat) ∧ c.Rank ∉ [Ace]))).length
      = 48 := by
  decide

theorem length_filter_jokerCards_ace (m : Nat) (hm : m + 2 ≤ 256) :
    ((jokerCards (m + 2)).filter
        (fun c => decide (c.Suit ∉ ([] : List Nat) ∧ c.Rank ∉ [Ace]))).length = m + 1 := by
  unfold jokerCards
  rw [List.filter_map, List.length_map, List.range_eq_range', ← List.range'_append_1 0 2 m,
    List.filter_append, List.length_append]
  have hhead : ((List.range' 0 2).filter
      ((fun c : Card => decide (c.Suit ∉ ([] : List Nat) ∧ c.Rank ∉ [Ace]))
        ∘ fun i => ({ Suit := Joker, Rank := i % 256 } : Card))).length = 1 := by
    decide
  have htail : (List.range' (0 + 2) m).filter
      ((fun c : Card => decide (c.Suit ∉ ([] : List Nat) ∧ c.Rank ∉ [Ace]))
        ∘ fun i => ({ Suit := Joker, Rank := i % 256 } : Card)) = List.range' (0 + 2) m := by
    rw [List.filter_eq_self]
    intro i hi
    have hi1 := List.mem_range'_1.mp hi
    have hmod : i % 256 = i := Nat.mod_eq_of_lt (by omega)
    simp only [Function.comp, List.not_mem_nil, not_false_eq_true, true_and, List.mem_singleton,
      hmod, Ace, decide_eq_true_eq]
    omega
  rw [hhead, htail, List.length_range']
  omega

/-- C20: for `n ≥ 1` and `2 ≤ j ≤ 256`, excluding the rank `Ace` with no suit
excluded also removes the joker stored with `Rank` 1: it occurs in `New(n, j)`
but not in `New(n, j).Filter([], [Ace])`, which has `n*(52 + j) - 5*n` cards. -/
theorem Filter_Ace_drops_joker (n j : Nat) (hn : 1 ≤ n) (hj2 : 2 ≤ j) (hj : j ≤ 256) :
    ({ Suit := Joker, Rank := 1 } : Card) ∈ New n j
      ∧ ({ Suit := Joker, Rank := 1 } : Card) ∉ Filter (New n j) [] [Ace]
      ∧ (Filter (New n j) [] [Ace]).length = n * (52 + j) - 5 * n := by
  refine ⟨?_, ?_, ?_⟩
  · rw [mem_New, oneDeck, List.mem_append]
    exact ⟨by omega, Or.inr ((mem_jokerCards j _).mpr ⟨1, by omega, rfl⟩)⟩
  · rw [Filter_eq_filter, List.mem_filter]
    rintro ⟨_, hkeep⟩
    simp [Ace] at hkeep
  · obtain ⟨m, rfl⟩ : ∃ m, j = m + 2 := ⟨j - 2, by omega⟩
    rw [Filter_eq_filter, New_eq, length_filter_flatten_replicate, oneDeck, List.filter_append,
      List.length_append, length_filter_standardCards_ace, length_filter_jokerCards_ace m hj]
    have h1 : n * (48 + (m + 1)) = n * 49 + n * m := by
      rw [Nat.mul_add, Nat.mul_add, Nat.mul_one]
      omega
    have h2 : n * (52 + (m + 2)) = n * 54 + n * m := by
      rw [Nat.mul_add, Nat.mul_add]
      omega
    rw [h1, h2]
    omega

/-- Witness for C20: `New(1, 2)` with the aces excluded loses its second joker
and keeps 49 cards. -/
theorem Filter_Ace_drops_joker_witness :
    1 ≤ 1 ∧ 2 ≤ 2 ∧ 2 ≤ 256
      ∧ ({ Suit := Joker, Rank := 1 } : Card) ∈ New 1 2
      ∧ ({ Suit := Joker, Rank := 1 } : Card) ∉ Filter (New 1 2) [] [Ace]
      ∧ (Filter (New 1 2) [] [Ace]).length = 1 * (52 + 2) - 5 * 1 :=
  ⟨Nat.le_refl 1, Nat.le_refl 2, by decide,
    Filter_Ace_drops_joker 1 2 (Nat.le_refl 1) (Nat.le_refl 2) (by decide)⟩

/-! ## Construction with its allocations: theorems -/

theorem appends_appendCard (grow : Grower) (c : Card) :
    Appends grow (fun s => appendCard grow s c) [c] where
  value := by
    intro s s1 h
    unfold appendCard at h
    split at h
    · injection h with h
      rw [← h]
    · split at h
      · exact Option.noConfusion h
      · injection h with h
        rw [← h]
  inPlace := by
    intro s hfit
    have hlt : s.cards.length < s.cap := by
      simp only [List.length_singleton] at hfit
      omega
    simp only [appendCard, hlt, if_true]
  grown := by
    intro hgrow s
    unfold appendCard
    split
    · exact ⟨_, rfl⟩
    · have h := hgrow s.cap (s.cards.length + 1)
      cases hg : grow s.cap (s.cards.length + 1) with
      | none =>
        rw [hg] at h
        exact Bool.noConfusion h
      | some newCap => exact ⟨_, rfl⟩

theorem appends_pure (grow : Grower) : Appends grow (fun s => some s) [] where
  value := by
    intro s s1 h
    injection h with h
    rw [← h, List.append_nil]
  inPlace := by
    intro s _
    rw [List.append_nil]
  grown := fun _ s => ⟨s, rfl⟩

/-- Two steps in sequence append the two blocks in sequence. -/
theorem appends_bind (grow : Grower) (f g : Slice → Option Slice) (b1 b2 : Deck)
    (hf : Appends grow f b1) (hg : Appends grow g b2) :
    Appends grow (fun s => (f s).bind g) (b1 ++ b2) where
  value := by
    intro s s2 h
    cases hfs : f s with
    | none =>
      rw [hfs] at h
      exact Option.noConfusion h
    | some s1 =>
      rw [hfs] at h
      rw [hg.value s1 s2 h, hf.value s s1 hfs, List.append_assoc]
  inPlace := by
    intro s hfit
    rw [List.length_append] at hfit
    rw [hf.inPlace s (by omega)]
    have h2 := hg.inPlace { cards := s.cards ++ b1, cap := s.cap }
      (by simp only [List.length_append]; omega)
    simp only [Option.some_bind, h2, List.append_assoc]
  grown := by
    intro hgrow s
    obtain ⟨s1, h1⟩ := hf.grown hgrow s
    obtain ⟨s2, h2⟩ := hg.grown hgrow s1
    exact ⟨s2, by simp only [h1, Option.some_bind, h2]⟩

/-- A loop whose body appends the block `g x` appends all the blocks in order. -/
theorem appends_foldlM {α : Type} (grow : Grower) (f : Slice → α → Option Slice)
    (g : α → Deck) (hstep : ∀ x, Appends grow (fun s => f s x) (g x)) (xs : List α) :
    Appends grow (fun s => xs.foldlM f s) (xs.flatMap g) := by
  induction xs with
  | nil => exact appends_pure grow
  | cons x xs ih =>
    have h := appends_bind grow (fun s => f s x) (fun s => xs.foldlM f s) (g x)
      (xs.flatMap g) (hstep x) ih
    rw [List.flatMap_cons]
    have hfun : (fun s => (x :: xs).foldlM f s) = fun s => (f s x).bind (fun s => xs.foldlM f s) := by
      funext s
      rw [List.foldlM_cons]
      rfl
    rw [hfun]
    exact h

theorem flatMap_singleton_map {α β : Type} (f : α → β) (xs : List α) :
    xs.flatMap (fun x => [f x]) = xs.map f := by
  induction xs with
  | nil => rfl
  | cons x xs ih => rw [List.flatMap_cons, ih, List.map_cons, List.singleton_append]

theorem flatMap_const_range {α : Type} (blk : List α) (n : Nat) :
    (List.range n).flatMap (fun _ => blk) = (List.replicate n blk).flatten := by
  induction n with
  | zero => rfl
  | succ n ih =>
    rw [List.range_succ, List.flatMap_append, ih, List.replicate_succ', List.flatten_append]
    simp

theorem appends_appendRanksAlloc (grow : Grower) (suit : Nat) :
    Appends grow (fun s => appendRanksAlloc grow s suit)
      ((List.range' 1 13).map fun rank => { Suit := suit, Rank := rank }) := by
  have h := appends_foldlM grow
    (fun dk rank => appendCard grow dk { Suit := suit, Rank := rank })
    (fun rank => [({ Suit := suit, Rank := rank } : Card)])
    (fun rank => appends_appendCard grow _) (List.range' 1 13)
  rw [flatMap_singleton_map] at h
  exact h

theorem appends_appendSuitsAlloc (grow : Grower) :
    Appends grow (fun s => appendSuitsAlloc grow s) standardCards :=
  appends_foldlM grow (appendRanksAlloc grow)
    (fun suit => (List.range' 1 13).map fun rank => { Suit := suit, Rank := rank })
    (appends_appendRanksAlloc grow) suits

theorem appends_appendJokersAlloc (grow : Grower) (j : Nat) :
    Appends grow (fun s => appendJokersAlloc grow s j) (jokerCards j) := by
  have h := appends_foldlM grow
    (fun dk i => appendCard grow dk { Suit := Joker, Rank := i % 256 })
    (fun i => [({ Suit := Joker, Rank := i % 256 } : Card)])
    (fun i => appends_appendCard grow _) (List.range j)
  rw [flatMap_singleton_map] at h
  exact h

/-- The loops of the call append the deck `New` as one block. -/
theorem appends_New (grow : Grower) (n j : Nat) :
    Appends grow
      (fun s => (List.range n).foldlM
        (fun dk _ => (appendSuitsAlloc grow dk).bind fun dk1 => appendJokersAlloc grow dk1 j) s)
      (New n j) := by
  have hone : Appends grow
      (fun s => (appendSuitsAlloc grow s).bind fun dk1 => appendJokersAlloc grow dk1 j)
      (oneDeck j) :=
    appends_bind grow _ _ _ _ (appends_appendSuitsAlloc grow) (appends_appendJokersAlloc grow j)
  have h := appends_foldlM grow
    (fun dk (_ : Nat) =>
      (appendSuitsAlloc grow dk).bind fun dk1 => appendJokersAlloc grow dk1 j)
    (fun _ => oneDeck j) (fun _ => hone) (List.range n)
  rw [flatMap_const_range, ← New_eq] at h
  exact h

/-- Whenever the call returns a deck, `make` was granted and the deck is the
value `New`. -/
theorem NewAlloc_eq_New (grow : Grower) (n j : Nat) (d : Deck)
    (h : NewAlloc grow n j = some d) :
    d = New n j ∧ cardSize * ((TypicalDeckSize * n) % uintModulus) ≤ maxAlloc := by
  unfold NewAlloc at h
  cases hmk : makeDeck ((TypicalDeckSize * n) % uintModulus) with
  | none =>
    rw [hmk] at h
    exact Option.noConfusion h
  | some s0 =>
    rw [hmk] at h
    unfold makeDeck at hmk
    split at hmk
    · rename_i hle
      injection hmk with hmk
      refine ⟨?_, hle⟩
      simp only [] at h
      split at h
      · exact Option.noConfusion h
      · rename_i dk hrun
        injection h with h
        rw [← h, (appends_New grow n j).value s0 dk hrun, ← hmk, List.nil_append]
    · exact Option.noConfusion hmk

/-- The call returns when `make` is granted and the runtime always grants a
larger array. -/
theorem NewAlloc_of_grow (grow : Grower) (n j : Nat)
    (hmake : cardSize * ((TypicalDeckSize * n) % uintModulus) ≤ maxAlloc)
    (hgrow : ∀ c l, (grow c l).isSome = true) : NewAlloc grow n j = some (New n j) := by
  obtain ⟨s1, hrun⟩ := (appends_New grow n j).grown hgrow
    { cards := [], cap := (TypicalDeckSize * n) % uintModulus }
  have hval := (appends_New grow n j).value _ s1 hrun
  simp only [List.nil_append] at hval
  simp only [NewAlloc, makeDeck, hmake, if_true, hrun, hval]

/-- The call returns without growing the slice when the capacity
`TypicalDeckSize*numDecks` is granted and there are at most two jokers per
deck. -/
theorem NewAlloc_of_fits (grow : Grower) (n j : Nat)
    (hmake : cardSize * (TypicalDeckSize * n) ≤ maxAlloc) (hj : j ≤ 2) :
    NewAlloc grow n j = some (New n j) := by
  have hsmall : TypicalDeckSize * n < uintModulus := by
    simp only [cardSize, maxAlloc, uintModulus, TypicalDeckSize] at hmake ⊢
    omega
  have hmod : (TypicalDeckSize * n) % uintModulus = TypicalDeckSize * n :=
    Nat.mod_eq_of_lt hsmall
  have hlen : (New n j).length ≤ TypicalDeckSize * n := by
    rw [New_length_eq, Nat.mul_comm TypicalDeckSize n]
    exact Nat.mul_le_mul_left n (by simp only [TypicalDeckSize]; omega)
  have hrun := (appends_New grow n j).inPlace { cards := [], cap := TypicalDeckSize * n }
    (by simpa using hlen)
  simp only [List.nil_append] at hrun
  simp only [NewAlloc, makeDeck, hmod, hmake, if_true, hrun]

/-- C1 as stated fails: for `numDecks = 1 << 62` the `uint` product
`TypicalDeckSize*numDecks` wraps to `1 << 63`, `make` panics on that capacity,
and `New(1 << 62, 0)` returns no deck, whatever the runtime does on growth. -/
theorem NewAlloc_make_panics :
    (TypicalDeckSize * 2 ^ 62) % uintModulus = 2 ^ 63
      ∧ ¬ cardSize * 2 ^ 63 ≤ maxAlloc
      ∧ NewAlloc (fun _ newLen => some newLen) (2 ^ 62) 0 = none
      ∧ ¬ ∃ (grow : Grower) (d : Deck), NewAlloc grow (2 ^ 62) 0 = some d := by
  have hprod : (TypicalDeckSize * 2 ^ 62) % uintModulus = 2 ^ 63 := by decide
  have hbig : ¬ cardSize * 2 ^ 63 ≤ maxAlloc := by decide
  have hnone : ∀ (grow : Grower) (d : Deck), NewAlloc grow (2 ^ 62) 0 ≠ some d := by
    intro grow d h
    have hmake := (NewAlloc_eq_New grow (2 ^ 62) 0 d h).2
    rw [hprod] at hmake
    exact hbig hmake
  refine ⟨hprod, hbig, ?_, ?_⟩
  · cases h : NewAlloc (fun _ newLen => some newLen) (2 ^ 62) 0 with
    | none => rfl
    | some d => exact absurd h (hnone _ d)
  · rintro ⟨grow, d, h⟩
    exact hnone grow d h

/-- C1 (amended): whenever `New(numDecks, numJokersPerDeck)` returns a deck,
the deck has exactly `numDecks * (52 + numJokersPerDeck)` cards and `make` was
granted the capacity `TypicalDeckSize*numDecks` computed in `uint`.  The call
returns when that capacity is granted and either the deck fits in it (the
product does not wrap and there are at most two jokers per deck) or the
runtime grants every growth of the slice.  `New(0, j)` is empty and, when the
capacity is granted, `New(n, 0)` has `52 * n` cards. -/
theorem NewAlloc_length (grow : Grower) (numDecks numJokersPerDeck : Nat) :
    (∀ d, NewAlloc grow numDecks numJokersPerDeck = some d →
        d = New numDecks numJokersPerDeck
          ∧ d.length = numDecks * (52 + numJokersPerDeck)
          ∧ cardSize * ((TypicalDeckSize * numDecks) % uintModulus) ≤ maxAlloc)
      ∧ (cardSize * (TypicalDeckSize * numDecks) ≤ maxAlloc → numJokersPerDeck ≤ 2 →
          ∃ d, NewAlloc grow numDecks numJokersPerDeck = some d
            ∧ d.length = numDecks * (52 + numJokersPerDeck))
      ∧ (cardSize * ((TypicalDeckSize * numDecks) % uintModulus) ≤ maxAlloc →
          (∀ c l, (grow c l).isSome = true) →
          ∃ d, NewAlloc grow numDecks numJokersPerDeck = some d
            ∧ d.length = numDecks * (52 + numJokersPerDeck))
      ∧ NewAlloc grow 0 numJokersPerDeck = some []
      ∧ (cardSize * (TypicalDeckSize * numDecks) ≤ maxAlloc →
          ∃ d, NewAlloc grow numDecks 0 = some d ∧ d.length = 52 * numDecks) := by
  refine ⟨?_, ?_, ?_, ?_, ?_⟩
  · intro d h
    obtain ⟨hd, hmake⟩ := NewAlloc_eq_New grow numDecks numJokersPerDeck d h
    exact ⟨hd, by rw [hd, New_length_eq], hmake⟩
  · intro hmake hj
    exact ⟨_, NewAlloc_of_fits grow numDecks numJokersPerDeck hmake hj, New_length_eq _ _⟩
  · intro hmake hgrow
    exact ⟨_, NewAlloc_of_grow grow numDecks numJokersPerDeck hmake hgrow, New_length_eq _ _⟩
  · rfl
  · intro hmake
    refine ⟨_, NewAlloc_of_fits grow numDecks 0 hmake (by omega), ?_⟩
    rw [New_length_eq, Nat.add_zero, Nat.mul_comm]

end Deck
